import Mathlib

/-!
# Verification of the ErSlice sitemap subsystem (src-tauri/src/commands.rs)

Shallow embedding of the module → page → subpage content-tree subsystem:
the metadata store (`page.json` sidecars), the order store (`_order.json`),
the tree builder (`build_module_tree_uncached`), the TTL cache
(`SITEMAP_CACHE` / `get_module_tree`), the mutating commands
(`create_module_page`, `delete_module_page`, `rename_module_page`,
`create_subpage`, `set_page_order`, `set_subpage_order`, `update_page_meta`),
the Mermaid identifier sanitizer (`sanitize_id`), and the analytics
aggregator (`build_sitemap_analytics_uncached`).

Modelling conventions:
* The filesystem is a `World`: a list of module directories in `read_dir`
  enumeration order.  A module directory holds an optional `pages`
  directory (absent directory = `none`), each page directory holds its
  `page.json` parse result (`none` = file absent or unparsable, exactly as
  `read_page_meta` collapses those two cases), its `meta.json` state (kept
  separately because the analytics aggregator reads `meta.json`, not
  `page.json`), an optional `subpages` directory, and the file-name lists
  of the three asset folders.  Stray files other than `page.json`,
  `meta.json` and `pages/_order.json` are not modelled.
* `SystemTime` is a `Nat` tick count; `timestamp.elapsed().unwrap_or(0)`
  becomes truncated subtraction `now - ts` (a clock that went backwards
  yields 0 in both).
* Rust's `BTreeMap<String, PageNode>` keyed by the node's own slug is
  modelled as a slug-sorted `List PageNode` (`btreeInsert` keeps it sorted
  by byte order and replaces an equal key, as `BTreeMap::insert` does).
* Rust's `sort_by` / `sort_by_key` are *stable* sorts; a stable sort's
  output is uniquely determined by the input and the (total, transitive)
  comparator, so they are modelled by the structurally recursive stable
  insertion sort `stableSort` below.
* `Char.toLower` (mapped over the character list) models
  `str::to_lowercase` (they agree on ASCII, the only range exercised
  here), and Rust's byte-wise `String` order is codepoint-lexicographic
  order on the character list (`charListLt`), identical on UTF-8.
  Whitespace-trimming (`slug.trim().is_empty()`) is modelled by
  `Char.isWhitespace` on every character.
* Floating-point analytics fields (`average_pages_per_module`,
  `completion_percentage`, `modules_completion` rates) are outside the
  embedding; no claim mentions them.
-/

namespace ErSlice

/-! ### String order and stable sorting -/

/-- Strict lexicographic order on character lists: the model of Rust's
byte-wise `String` ordering (UTF-8 bytes order exactly as codepoints do). -/
def charListLt : List Char → List Char → Bool
  | [], [] => false
  | [], _ :: _ => true
  | _ :: _, [] => false
  | a :: as, b :: bs =>
    if a < b then true else if b < a then false else charListLt as bs

/-- `a ≤ b` as Rust's comparator sees it (`cmp(a, b) != Greater`). -/
def charListLe (a b : List Char) : Bool := !(charListLt b a)

/-- One step of stable insertion sort: place `a` before the first element
`b` with `le a b`. -/
def orderedInsert {α : Type} (le : α → α → Bool) (a : α) : List α → List α
  | [] => [a]
  | b :: l => if le a b then a :: b :: l else b :: orderedInsert le a l

/-- Stable insertion sort: the model of Rust's stable `sort_by` /
`sort_by_key` (for a total, transitive comparator a stable sort's output
is unique, so any stable sort is a faithful model). -/
def stableSort {α : Type} (le : α → α → Bool) : List α → List α
  | [] => []
  | a :: l => orderedInsert le a (stableSort le l)

/-- `LinkMeta { to, label }` from commands.rs. -/
structure LinkMeta where
  «to» : String
  label : Option String
deriving DecidableEq, Repr

/-- `PageMeta`: the parse target of a `page.json` sidecar.  The Rust field
`class` is a Lean keyword, hence the guillemets. -/
structure PageMeta where
  slug : Option String
  title : Option String
  path : Option String
  status : Option String
  route : Option String
  notes : Option String
  domain : Option String
  area : Option String
  component : Option String
  action : Option String
  «class» : Option String
  mermaid_id : Option String
  links : Option (List LinkMeta)
deriving DecidableEq, Repr

/-- The all-`None` record returned by `read_page_meta` on a missing or
unparsable sidecar. -/
def PageMeta.default : PageMeta :=
  { slug := none, title := none, path := none, status := none, route := none
    notes := none, domain := none, area := none, component := none
    action := none, «class» := none, mermaid_id := none, links := none }

/-- `read_page_meta`: never fails; missing/unparsable `page.json`
(modelled as `none`) degrades to the zero-valued record. -/
def read_page_meta (stored : Option PageMeta) : PageMeta :=
  stored.getD PageMeta.default

/-- `OrderFile { pages, subpages }`.  The `HashMap<String, Vec<String>>` is
an association list; lookups take the first matching key. -/
structure OrderFile where
  pages : List String
  subpages : List (String × List String)
deriving DecidableEq, Repr

/-- `OrderFile::default()`. -/
def OrderFile.empty : OrderFile := { pages := [], subpages := [] }

/-- `HashMap::get` on the modelled `subpages` map. -/
def OrderFile.getSub (o : OrderFile) (k : String) : Option (List String) :=
  (o.subpages.find? (fun e => e.1 = k)).map (·.2)

/-- `HashMap::insert` on the modelled `subpages` map: replace the key's
entry if present, else append. -/
def OrderFile.insertSub (o : OrderFile) (k : String) (v : List String) : OrderFile :=
  { o with subpages :=
      if o.subpages.any (fun e => e.1 = k) then
        o.subpages.map (fun e => if e.1 = k then (k, v) else e)
      else
        o.subpages ++ [(k, v)] }

/-- The `meta.json` sidecar as the analytics aggregator distinguishes its
states: absent, present-but-unreadable, readable-but-unparsable, or parsed
JSON of which only the `status` string value and the *presence* of the
`route` and `title` keys are inspected. -/
inductive MetaFile where
  | absent
  | unreadable
  | invalid
  | parsed (status : Option String) (hasRoute : Bool) (hasTitle : Bool)
deriving DecidableEq, Repr

/-- A `pages/<slug>/subpages/<slug>` directory. -/
structure SubpageDir where
  slug : String
  pageJson : Option PageMeta
  metaJson : MetaFile
  screenshots : List String
  html : List String
  css : List String
deriving DecidableEq, Repr

/-- A `pages/<slug>` directory.  `subpages = none` models an absent
`subpages` subdirectory. -/
structure PageDir where
  slug : String
  pageJson : Option PageMeta
  metaJson : MetaFile
  subpages : Option (List SubpageDir)
  screenshots : List String
  html : List String
  css : List String
deriving DecidableEq, Repr

/-- A `design-assets/<name>` module directory.  `pages = none` models an
absent (or unenumerable) `pages` subdirectory; `orderFile = none` models a
missing or unparsable `pages/_order.json`. -/
structure ModuleDir where
  name : String
  pages : Option (List PageDir)
  orderFile : Option OrderFile
deriving DecidableEq, Repr

/-- The filesystem state: `design-assets/*` in enumeration order, plus the
active project's name (only analytics reads it). -/
structure World where
  modules : List ModuleDir
  projectName : String
deriving DecidableEq, Repr

/-- Directory lookup `design-assets/<name>`. -/
def findModule (w : World) (name : String) : Option ModuleDir :=
  w.modules.find? (fun m => m.name = name)

/-- `load_order`: read `pages/_order.json`, defaulting to the empty order
file when absent or unparsable. -/
def load_order (m : ModuleDir) : OrderFile :=
  m.orderFile.getD OrderFile.empty

/-- `Vec::dedup`: remove *consecutive* repeated elements, keeping one
element of each run.  (Structural right recursion; on equal elements
keeping the first or the last of a run yields the same list.) -/
def vecDedup {α : Type} [DecidableEq α] : List α → List α
  | [] => []
  | a :: rest =>
    match vecDedup rest with
    | [] => [a]
    | b :: t => if a = b then b :: t else a :: b :: t

/-- `save_order`: create the `pages` directory if absent, `Vec::dedup` the
top-level list and every per-parent list, and write `_order.json`. -/
def save_order (m : ModuleDir) (of : OrderFile) : ModuleDir :=
  let written : OrderFile :=
    { pages := vecDedup of.pages
      subpages := of.subpages.map (fun e => (e.1, vecDedup e.2)) }
  { m with
    pages := some (m.pages.getD [])
    orderFile := some written }

/-- `sanitize_id`: copy the string replacing every character that is not
ASCII-alphanumeric by `_` (the push loop), pop leading underscores (the
`while starts_with('_') remove(0)` loop, i.e. `dropWhile`), and fall back
to `"n"` when nothing is left. -/
def sanitize_id (s : String) : String :=
  let out : List Char :=
    s.data.foldl (fun acc ch => acc ++ [if ch.isAlphanum then ch else '_']) []
  let out := out.dropWhile (fun c => c = '_')
  if out.isEmpty then "n" else ⟨out⟩

/-! ## Tree builder (`build_module_tree_uncached`) -/

/-- `PageNode`: the tree node returned by `get_module_tree`. -/
structure PageNode where
  slug : String
  path : String
  title : Option String
  status : Option String
  route : Option String
  notes : Option String
  domain : Option String
  area : Option String
  component : Option String
  action : Option String
  «class» : Option String
  links : Option (List LinkMeta)
  children : List PageNode

/-- The subpage scan of `build_module_tree_uncached` (inner loop). -/
def subpageNode (module_name slug : String) (sp : SubpageDir) : PageNode :=
  let m := read_page_meta sp.pageJson
  { slug := sp.slug
    path := m.path.getD ("/" ++ module_name ++ "/" ++ slug ++ "/" ++ sp.slug)
    title := m.title, status := m.status, route := m.route, notes := m.notes
    domain := m.domain, area := m.area, component := m.component
    action := m.action, «class» := m.«class», links := m.links
    children := [] }

/-- One `pages/<slug>` entry of the outer scan, children in filesystem
enumeration order (an absent `subpages` directory yields no children). -/
def rawPageNode (module_name : String) (p : PageDir) : PageNode :=
  let m := read_page_meta p.pageJson
  { slug := p.slug
    path := m.path.getD ("/" ++ module_name ++ "/" ++ p.slug)
    title := m.title, status := m.status, route := m.route, notes := m.notes
    domain := m.domain, area := m.area, component := m.component
    action := m.action, «class» := m.«class», links := m.links
    children := (p.subpages.getD []).map (subpageNode module_name p.slug) }

/-- `BTreeMap::insert` keyed by the node's slug: keep the list sorted in
byte order, replacing an entry with an equal key. -/
def btreeInsert (l : List PageNode) (n : PageNode) : List PageNode :=
  match l with
  | [] => [n]
  | x :: xs =>
    if charListLt n.slug.data x.slug.data then n :: x :: xs
    else if n.slug = x.slug then n :: xs
    else x :: btreeInsert xs n

/-- `BTreeMap::remove`: extract the (unique) entry with the given key. -/
def btreeRemove (l : List PageNode) (k : String) : Option PageNode × List PageNode :=
  match l with
  | [] => (none, [])
  | x :: xs =>
    if x.slug = k then (some x, xs)
    else
      let r := btreeRemove xs k
      (r.1, x :: r.2)

/-- `usize::MAX`, the fallback sort key of
`subo.iter().position(..).unwrap_or(usize::MAX)`. -/
def USIZE_MAX : Nat := 2 ^ 64 - 1

/-- The `sort_by_key` key: position of the child's slug in the per-parent
order list, defaulting to `usize::MAX`. -/
def suboKey (subo : List String) (c : PageNode) : Nat :=
  (subo.findIdx? (fun s => s = c.slug)).getD USIZE_MAX

/-- Comparison used by `sort_by_key` on the per-parent order list. -/
def suboLE (subo : List String) (a b : PageNode) : Bool :=
  decide (suboKey subo a ≤ suboKey subo b)

/-- The `a.slug.to_lowercase().cmp(&b.slug.to_lowercase())` comparator. -/
def ciLE (a b : PageNode) : Bool :=
  charListLe (a.slug.data.map Char.toLower) (b.slug.data.map Char.toLower)

/-- Child ordering applied to a page that appears in `order.pages`:
its per-parent order list when present, else the case-insensitive sort. -/
def sortChildrenFor (order : OrderFile) (slug : String) (cs : List PageNode) : List PageNode :=
  match order.getSub slug with
  | some subo => stableSort (suboLE subo) cs
  | none => stableSort ciLE cs

/-- The `for slug in order.pages` loop: remove each listed slug from the
map (skipping slugs no longer present — and, because a removed key is
gone, later duplicates), sort its children, and emit it.  Returns the
emitted prefix and the remaining map. -/
def orderLoop (order : OrderFile) : List String → List PageNode → List PageNode × List PageNode
  | [], m => ([], m)
  | s :: rest, m =>
    match btreeRemove m s with
    | (some node, m') =>
      let node' := { node with children := sortChildrenFor order s node.children }
      let r := orderLoop order rest m'
      (node' :: r.1, r.2)
    | (none, m') => orderLoop order rest m'

/-- `build_module_tree_uncached`: fails only when the module directory is
missing; scans `pages/*` (absent directory ⇒ no entries), applies the
order file, and appends the remaining pages in case-insensitive slug
order with case-insensitively sorted children. -/
def build_module_tree_uncached (w : World) (module_name : String) : Except String (List PageNode) :=
  match findModule w module_name with
  | none => .error "設計模組不存在"
  | some m =>
    let entries := m.pages.getD []
    let map_pages := entries.foldl (fun acc p => btreeInsert acc (rawPageNode module_name p)) []
    let order := load_order m
    let start :=
      if order.pages.isEmpty then (([] : List PageNode), map_pages)
      else orderLoop order order.pages map_pages
    let rest := stableSort ciLE start.2
    let restSorted := rest.map (fun n => { n with children := stableSort ciLE n.children })
    .ok (start.1 ++ restSorted)

/-- Top-level slugs of a tree. -/
def slugsOf (t : List PageNode) : List String := t.map (·.slug)

/-! ## Cache layer (`SITEMAP_CACHE`) -/

/-- `CachedData<T> { data, timestamp }`; the timestamp is a tick count. -/
structure CacheEntry (α : Type) where
  data : α
  timestamp : Nat

/-- `DesignModule` (only a cache payload here). -/
structure DesignModule where
  id : String
  name : String
  description : String
  asset_count : Nat
  last_updated : String
  status : String
deriving DecidableEq, Repr

/-- `SitemapAnalytics`, minus the floating-point derivatives
(`average_pages_per_module`, the `CoverageMetrics` percentages and the
`modules_completion` rates), which no claim mentions.  The
`status_distribution` `HashMap` is a count function. -/
structure SitemapAnalytics where
  project_name : String
  total_modules : Nat
  total_pages : Nat
  total_subpages : Nat
  modules_with_deep_structure : List String
  orphaned_pages : List String
  status_distribution : String → Nat
  deepest_module : Option String
  max_depth : Nat
  pages_with_screenshots : Nat
  pages_with_html : Nat
  pages_with_css : Nat

/-- The process-wide `SitemapCache`; the `HashMap<String, _>` of module
trees is an association list with unique keys. -/
structure SitemapCache where
  module_trees : List (String × CacheEntry (List PageNode))
  analytics : Option (CacheEntry SitemapAnalytics)
  design_modules : Option (CacheEntry (List DesignModule))

/-- `SitemapCache::new`. -/
def SitemapCache.new : SitemapCache :=
  { module_trees := [], analytics := none, design_modules := none }

/-- `HashMap::get` on the module-tree cache. -/
def cacheLookup (c : SitemapCache) (name : String) : Option (CacheEntry (List PageNode)) :=
  (c.module_trees.find? (fun e => e.1 = name)).map (·.2)

/-- `HashMap::insert` (replace an existing key, else add). -/
def mapInsert {α : Type} (l : List (String × α)) (k : String) (v : α) : List (String × α) :=
  if l.any (fun e => e.1 = k) then
    l.map (fun e => if e.1 = k then (k, v) else e)
  else
    l ++ [(k, v)]

/-- `is_module_tree_fresh`: an entry exists and
`timestamp.elapsed().unwrap_or(0) < max_age`. -/
def SitemapCache.is_module_tree_fresh (c : SitemapCache) (name : String) (now max_age : Nat) : Bool :=
  match cacheLookup c name with
  | none => false
  | some e => decide (now - e.timestamp < max_age)

/-- `is_fresh` for the single-slot caches. -/
def entryFresh {α : Type} (e : Option (CacheEntry α)) (now max_age : Nat) : Bool :=
  match e with
  | none => false
  | some e => decide (now - e.timestamp < max_age)

/-- `invalidate_module`: drop the module's tree entry and the analytics
entry (analytics depend on all modules). -/
def SitemapCache.invalidate_module (c : SitemapCache) (name : String) : SitemapCache :=
  { c with module_trees := c.module_trees.filter (fun e => ¬ e.1 = name)
           analytics := none }

/-- `invalidate_all`. -/
def SitemapCache.invalidate_all (_c : SitemapCache) : SitemapCache :=
  SitemapCache.new

/-- `CACHE_DURATION_MEDIUM` (module trees), in seconds. -/
def CACHE_DURATION_MEDIUM : Nat := 300

/-- `CACHE_DURATION_LONG` (analytics), in seconds. -/
def CACHE_DURATION_LONG : Nat := 600

/-- `get_module_tree`: serve a fresh cached tree, else rebuild from the
filesystem and cache the result with the current timestamp (errors are
not cached). -/
def get_module_tree (w : World) (cache : SitemapCache) (now : Nat) (module_name : String) :
    Except String (List PageNode) × SitemapCache :=
  let hit : Option (List PageNode) :=
    if cache.is_module_tree_fresh module_name now CACHE_DURATION_MEDIUM then
      (cacheLookup cache module_name).map (·.data)
    else none
  match hit with
  | some t => (.ok t, cache)
  | none =>
    match build_module_tree_uncached w module_name with
    | .error e => (.error e, cache)
    | .ok result =>
      (.ok result,
       { cache with module_trees := mapInsert cache.module_trees module_name ⟨result, now⟩ })

/-! ## Mutating commands -/

/-- `PageInfo { slug, path }`. -/
structure PageInfo where
  slug : String
  path : String
deriving DecidableEq, Repr

/-- The `pages/*` entries of a module (an absent directory enumerates to
nothing). -/
def getPages (m : ModuleDir) : List PageDir := m.pages.getD []

/-- Whether `pages/<slug>` is a page directory. -/
def hasPage (m : ModuleDir) (slug : String) : Bool :=
  (getPages m).any (fun p => p.slug = slug)

/-- `Path::exists` on `pages/<s>`: true for every page directory and also
for the `_order.json` file itself when an order file is present — the
check the mutation commands actually perform (`.exists()`, not
`.is_dir()`). -/
def pathExistsInPages (m : ModuleDir) (s : String) : Bool :=
  match m.pages with
  | none => false
  | some ps => ps.any (fun p => p.slug = s) || (s = "_order.json" && m.orderFile.isSome)

/-- The slugs under `pages/<parent>/subpages` (empty when the parent page
or its `subpages` directory is absent — then no path under it exists). -/
def subpageSlugs (m : ModuleDir) (parent : String) : List String :=
  match (getPages m).find? (fun p => p.slug = parent) with
  | some p => (p.subpages.getD []).map (·.slug)
  | none => []

/-- Apply `f` to the named module directory. -/
def updateModule (w : World) (name : String) (f : ModuleDir → ModuleDir) : World :=
  { w with modules := w.modules.map (fun m => if m.name = name then f m else m) }

/-- The `PageMeta` that results from parsing the `page.json` that
`create_module_page` writes (the extra `createdAt` key is ignored by the
`PageMeta` deserializer). -/
def createdMeta (module_name slug : String) : PageMeta :=
  { slug := some slug, title := some slug
    path := some ("/" ++ module_name ++ "/" ++ slug)
    status := some "draft"
    route := some ("/" ++ module_name ++ "/" ++ slug)
    notes := some ""
    domain := none, area := none, component := none, action := none
    «class» := none, mermaid_id := none, links := none }

/-- `create_module_page`: validates module existence and the slug, then
`create_dir_all`s the page and asset directories (a no-op on the parts
that already exist), invalidates the cache, and writes `page.json` —
overwriting any existing sidecar; there is no already-exists check. -/
def create_module_page (w : World) (cache : SitemapCache) (module_name slug : String) :
    Except String PageInfo × World × SitemapCache :=
  match findModule w module_name with
  | none => (.error "設計模組不存在", w, cache)
  | some _ =>
    if slug.data.all Char.isWhitespace then (.error "頁面代稱不可為空", w, cache)
    else if slug.data.contains '/' then (.error "頁面代稱不可包含 /", w, cache)
    else
      let w' := updateModule w module_name (fun m =>
        let ps := getPages m
        let ps' :=
          if ps.any (fun p => p.slug = slug) then
            ps.map (fun p =>
              if p.slug = slug then { p with pageJson := some (createdMeta module_name slug) }
              else p)
          else
            ps ++ [{ slug := slug, pageJson := some (createdMeta module_name slug)
                     metaJson := .absent, subpages := none
                     screenshots := [], html := [], css := [] }]
        { m with pages := some ps' })
      (.ok { slug := slug, path := "/" ++ module_name ++ "/" ++ slug },
       w', cache.invalidate_module module_name)

/-- `delete_module_page`: checks `page_dir.exists()` and removes the
directory.  No cache invalidation.  (When the existing path is the
`_order.json` file rather than a directory, `remove_dir_all` fails; the
world is left unchanged.) -/
def delete_module_page (w : World) (cache : SitemapCache) (module_name slug : String) :
    Except String String × World × SitemapCache :=
  let ex := match findModule w module_name with
    | none => false
    | some m => pathExistsInPages m slug
  if !ex then (.error "目標頁面不存在", w, cache)
  else
    match findModule w module_name with
    | some m =>
      if hasPage m slug then
        (.ok ("已刪除頁面: " ++ slug),
         updateModule w module_name (fun m =>
           { m with pages := some ((getPages m).filter (fun p => ¬ p.slug = slug)) }),
         cache)
      else (.error ("刪除頁面失敗: " ++ slug), w, cache)
    | none => (.error "目標頁面不存在", w, cache)

/-- `rename_module_page`: validates the new slug, requires the source
path to exist and the target path not to, then renames the directory.
Metadata contents (including stored `path`/`route` fields) move along
unchanged.  No cache invalidation.  (Renaming the literal `_order.json`
file is outside the model: that branch leaves the order file dropped.) -/
def rename_module_page (w : World) (cache : SitemapCache) (module_name from_slug to_slug : String) :
    Except String PageInfo × World × SitemapCache :=
  if to_slug.data.all Char.isWhitespace then (.error "新代稱不可為空", w, cache)
  else if to_slug.data.contains '/' then (.error "新代稱不可包含 /", w, cache)
  else
    match findModule w module_name with
    | none => (.error "來源頁面不存在", w, cache)
    | some m =>
      if ¬ pathExistsInPages m from_slug then (.error "來源頁面不存在", w, cache)
      else if pathExistsInPages m to_slug then (.error "目標代稱已存在", w, cache)
      else if hasPage m from_slug then
        (.ok { slug := to_slug, path := "/" ++ module_name ++ "/" ++ to_slug },
         updateModule w module_name (fun m =>
           { m with pages := some ((getPages m).map (fun p =>
               if p.slug = from_slug then { p with slug := to_slug } else p)) }),
         cache)
      else
        (.ok { slug := to_slug, path := "/" ++ module_name ++ "/" ++ to_slug },
         updateModule w module_name (fun m => { m with orderFile := none }),
         cache)

/-- The parsed form of the `page.json` written by `create_subpage`. -/
def createdSubMeta (module_name parent_slug slug : String) : PageMeta :=
  { slug := some slug, title := some slug
    path := some ("/" ++ module_name ++ "/" ++ parent_slug ++ "/" ++ slug)
    status := some "draft"
    route := some ("/" ++ module_name ++ "/" ++ parent_slug ++ "/" ++ slug)
    notes := some ""
    domain := none, area := none, component := none, action := none
    «class» := none, mermaid_id := none, links := none }

/-- `create_subpage`: validates only the slug; `create_dir_all` creates
every missing directory on the path (module, `pages`, parent page,
`subpages`), invalidates the cache, and writes the subpage's `page.json`
(overwriting an existing one). -/
def create_subpage (w : World) (cache : SitemapCache) (module_name parent_slug slug : String) :
    Except String PageInfo × World × SitemapCache :=
  if slug.data.all Char.isWhitespace then (.error "子頁代稱不可為空", w, cache)
  else if slug.data.contains '/' then (.error "子頁代稱不可包含 /", w, cache)
  else
    let newSub : SubpageDir :=
      { slug := slug, pageJson := some (createdSubMeta module_name parent_slug slug)
        metaJson := .absent, screenshots := [], html := [], css := [] }
    let addSub : ModuleDir → ModuleDir := fun m =>
      let ps := getPages m
      let ps' :=
        if ps.any (fun p => p.slug = parent_slug) then
          ps.map (fun p =>
            if p.slug = parent_slug then
              let subs := p.subpages.getD []
              let subs' :=
                if subs.any (fun sp => sp.slug = slug) then
                  subs.map (fun sp =>
                    if sp.slug = slug then
                      { sp with pageJson := some (createdSubMeta module_name parent_slug slug) }
                    else sp)
                else subs ++ [newSub]
              { p with subpages := some subs' }
            else p)
        else
          ps ++ [{ slug := parent_slug, pageJson := none, metaJson := .absent
                   subpages := some [newSub], screenshots := [], html := [], css := [] }]
      { m with pages := some ps' }
    let w' :=
      match findModule w module_name with
      | some _ => updateModule w module_name addSub
      | none =>
        { w with modules :=
            w.modules ++ [addSub { name := module_name, pages := some [], orderFile := none }] }
    (.ok { slug := slug, path := "/" ++ module_name ++ "/" ++ parent_slug ++ "/" ++ slug },
     w', cache.invalidate_module module_name)

/-- `set_page_order`: requires the module; every referenced slug must
pass `Path::exists` under `pages/` (the first failing slug is named in
the error and nothing is written); then read-modify-write the order file
through `save_order`.  No cache invalidation. -/
def set_page_order (w : World) (cache : SitemapCache) (module_name : String) (order : List String) :
    Except String String × World × SitemapCache :=
  match findModule w module_name with
  | none => (.error "設計模組不存在", w, cache)
  | some m =>
    match order.find? (fun s => ! pathExistsInPages m s) with
    | some s => (.error ("頁面不存在: " ++ s), w, cache)
    | none =>
      let of := load_order m
      (.ok "已更新頁面順序",
       updateModule w module_name (fun m => save_order m { of with pages := order }),
       cache)

/-- `set_subpage_order`: like `set_page_order` but validates against
`pages/<parent>/subpages/<s>` and replaces the parent's entry in the
`subpages` map.  No cache invalidation. -/
def set_subpage_order (w : World) (cache : SitemapCache) (module_name parent_slug : String)
    (order : List String) : Except String String × World × SitemapCache :=
  match findModule w module_name with
  | none => (.error "設計模組不存在", w, cache)
  | some m =>
    match order.find? (fun s => ! (subpageSlugs m parent_slug).contains s) with
    | some s => (.error ("子頁不存在: " ++ s), w, cache)
    | none =>
      let of := load_order m
      (.ok "已更新子頁順序",
       updateModule w module_name (fun m => save_order m (of.insertSub parent_slug order)),
       cache)

/-- `PageMetaUpdate`: the patch record of `update_page_meta`. -/
structure PageMetaUpdate where
  title : Option String
  status : Option String
  route : Option String
  notes : Option String
  path : Option String
  domain : Option String
  area : Option String
  component : Option String
  action : Option String
  «class» : Option String
  links : Option (List LinkMeta)
deriving DecidableEq, Repr

/-- The empty patch. -/
def PageMetaUpdate.empty : PageMetaUpdate :=
  { title := none, status := none, route := none, notes := none, path := none
    domain := none, area := none, component := none, action := none
    «class» := none, links := none }

/-- The field-by-field `if let Some(v) = meta.f { cur.f = Some(v) }`
cascade of `update_page_meta`. -/
def overlayMeta (cur : PageMeta) (u : PageMetaUpdate) : PageMeta :=
  let cur := match u.title with | some v => { cur with title := some v } | none => cur
  let cur := match u.status with | some v => { cur with status := some v } | none => cur
  let cur := match u.route with | some v => { cur with route := some v } | none => cur
  let cur := match u.notes with | some v => { cur with notes := some v } | none => cur
  let cur := match u.path with | some v => { cur with path := some v } | none => cur
  let cur := match u.domain with | some v => { cur with domain := some v } | none => cur
  let cur := match u.area with | some v => { cur with area := some v } | none => cur
  let cur := match u.component with | some v => { cur with component := some v } | none => cur
  let cur := match u.action with | some v => { cur with action := some v } | none => cur
  let cur := match u.«class» with | some v => { cur with «class» := some v } | none => cur
  let cur := match u.links with | some v => { cur with links := some v } | none => cur
  cur

/-- `update_page_meta`: requires `pages/<slug>` to exist, then
read-modify-writes `page.json` (the read degrades to the zero record, so
the write is the overlay of the patch onto it).  No cache invalidation.
(When the existing path is the `_order.json` file, the `fs::write` into
it fails and nothing changes.) -/
def update_page_meta (w : World) (cache : SitemapCache) (module_name slug : String)
    (u : PageMetaUpdate) : Except String String × World × SitemapCache :=
  let ex := match findModule w module_name with
    | none => false
    | some m => pathExistsInPages m slug
  if !ex then (.error "頁面不存在", w, cache)
  else
    match findModule w module_name with
    | some m =>
      if hasPage m slug then
        (.ok "已更新頁面 meta",
         updateModule w module_name (fun m =>
           { m with pages := some ((getPages m).map (fun p =>
               if p.slug = slug then
                 { p with pageJson := some (overlayMeta (read_page_meta p.pageJson) u) }
               else p)) }),
         cache)
      else (.error "寫入失敗", w, cache)
    | none => (.error "頁面不存在", w, cache)

/-! ## Analytics aggregator (`build_sitemap_analytics_uncached`)

Note: the aggregator reads the `meta.json` sidecar (shared with
sitemap export/import), **not** the `page.json` sidecar that the page
commands and the tree builder maintain. -/

/-- Bump one key of the status histogram. -/
def bumpStatus (f : String → Nat) (k : String) : String → Nat :=
  fun x => if x = k then f x + 1 else f x

/-- Running state of the aggregation loop. -/
structure AnalyticsAcc where
  total_modules : Nat
  total_pages : Nat
  total_subpages : Nat
  modules_with_deep_structure : List String
  orphaned_pages : List String
  status_distribution : String → Nat
  max_depth : Nat
  deepest_module : Option String
  pages_with_screenshots : Nat
  pages_with_html : Nat
  pages_with_css : Nat

/-- The zeroed accumulator. -/
def AnalyticsAcc.init : AnalyticsAcc :=
  { total_modules := 0, total_pages := 0, total_subpages := 0
    modules_with_deep_structure := [], orphaned_pages := []
    status_distribution := fun _ => 0, max_depth := 0, deepest_module := none
    pages_with_screenshots := 0, pages_with_html := 0, pages_with_css := 0 }

/-- The subpage loop body: count it, count its assets, and record its
`meta.json` status when the file parses (missing or broken files are
silently skipped here). -/
def processSubpage (acc : AnalyticsAcc) (sp : SubpageDir) : AnalyticsAcc :=
  let acc := { acc with total_subpages := acc.total_subpages + 1 }
  let acc := if ¬ sp.screenshots.isEmpty then
      { acc with pages_with_screenshots := acc.pages_with_screenshots + 1 } else acc
  let acc := if ¬ sp.html.isEmpty then
      { acc with pages_with_html := acc.pages_with_html + 1 } else acc
  let acc := if ¬ sp.css.isEmpty then
      { acc with pages_with_css := acc.pages_with_css + 1 } else acc
  match sp.metaJson with
  | .parsed st _ _ =>
    { acc with status_distribution := bumpStatus acc.status_distribution (st.getD "unknown") }
  | _ => acc

/-- The page loop body: count the page and its assets, classify its
`meta.json` (pushing an orphan entry for a missing, unreadable,
unparsable, or `route`/`title`-key-less file — never aborting), then
recurse into the subpages. -/
def processPage (module_name : String) (acc : AnalyticsAcc) (p : PageDir) : AnalyticsAcc :=
  let acc := { acc with total_pages := acc.total_pages + 1 }
  let acc := if ¬ p.screenshots.isEmpty then
      { acc with pages_with_screenshots := acc.pages_with_screenshots + 1 } else acc
  let acc := if ¬ p.html.isEmpty then
      { acc with pages_with_html := acc.pages_with_html + 1 } else acc
  let acc := if ¬ p.css.isEmpty then
      { acc with pages_with_css := acc.pages_with_css + 1 } else acc
  let acc :=
    match p.metaJson with
    | .absent =>
      { acc with orphaned_pages :=
          acc.orphaned_pages ++ [module_name ++ "/" ++ p.slug ++ " (no meta)"] }
    | .unreadable =>
      { acc with orphaned_pages :=
          acc.orphaned_pages ++ [module_name ++ "/" ++ p.slug ++ " (unreadable meta)"] }
    | .invalid =>
      { acc with orphaned_pages :=
          acc.orphaned_pages ++ [module_name ++ "/" ++ p.slug ++ " (invalid meta)"] }
    | .parsed st hasRoute hasTitle =>
      let acc :=
        { acc with status_distribution := bumpStatus acc.status_distribution (st.getD "unknown") }
      if ¬ hasRoute ∨ ¬ hasTitle then
        { acc with orphaned_pages := acc.orphaned_pages ++ [module_name ++ "/" ++ p.slug] }
      else acc
  (p.subpages.getD []).foldl processSubpage acc

/-- `module_depth`: 3 when some page has a nonempty `subpages` directory
(the `has_subpages` flag), else the initial 1. -/
def moduleDepth (m : ModuleDir) : Nat :=
  if (getPages m).any (fun p => ¬ (p.subpages.getD []).isEmpty) then 3 else 1

/-- The module loop body. -/
def processModule (acc : AnalyticsAcc) (m : ModuleDir) : AnalyticsAcc :=
  let acc := { acc with total_modules := acc.total_modules + 1 }
  let acc := (getPages m).foldl (processPage m.name) acc
  let depth := moduleDepth m
  let acc := if depth ≥ 3 then
      { acc with modules_with_deep_structure := acc.modules_with_deep_structure ++ [m.name] }
    else acc
  if depth > acc.max_depth then
    { acc with max_depth := depth, deepest_module := some m.name }
  else acc

/-- `build_sitemap_analytics_uncached` (its floating-point derivatives
omitted). -/
def build_sitemap_analytics_uncached (w : World) : SitemapAnalytics :=
  let acc := w.modules.foldl processModule AnalyticsAcc.init
  { project_name := w.projectName
    total_modules := acc.total_modules, total_pages := acc.total_pages
    total_subpages := acc.total_subpages
    modules_with_deep_structure := acc.modules_with_deep_structure
    orphaned_pages := acc.orphaned_pages
    status_distribution := acc.status_distribution
    deepest_module := acc.deepest_module, max_depth := acc.max_depth
    pages_with_screenshots := acc.pages_with_screenshots
    pages_with_html := acc.pages_with_html, pages_with_css := acc.pages_with_css }

/-- `analyze_sitemap`: the cached wrapper around the aggregator. -/
def analyze_sitemap (w : World) (cache : SitemapCache) (now : Nat) :
    SitemapAnalytics × SitemapCache :=
  let hit : Option SitemapAnalytics :=
    if entryFresh cache.analytics now CACHE_DURATION_LONG then
      cache.analytics.map (·.data)
    else none
  match hit with
  | some a => (a, cache)
  | none =>
    let result := build_sitemap_analytics_uncached w
    (result, { cache with analytics := some ⟨result, now⟩ })

/-! ## Statement helpers -/

/-- Top-level slugs of a tree-build result (`none` on error). -/
def okSlugs (e : Except String (List PageNode)) : Option (List String) :=
  match e with
  | .ok t => some (slugsOf t)
  | .error _ => none

/-- Slug-level shape (page slug, child slugs) of a tree-build result. -/
def okShape (e : Except String (List PageNode)) : Option (List (String × List String)) :=
  match e with
  | .ok t => some (t.map (fun n => (n.slug, slugsOf n.children)))
  | .error _ => none

/-- Lookup of one page directory. -/
def lookupPage (w : World) (module_name slug : String) : Option PageDir :=
  (findModule w module_name).bind (fun m => (getPages m).find? (fun p => p.slug = slug))

/-- The case-insensitive node sort. -/
def ciSortNodes (cs : List PageNode) : List PageNode := stableSort ciLE cs

/-- Byte-order node comparator (the `BTreeMap` iteration order). -/
def slugByteLE (a b : PageNode) : Bool := charListLe a.slug.data b.slug.data

/-- Byte-order node sort. -/
def byteSortNodes (cs : List PageNode) : List PageNode := stableSort slugByteLE cs

/-! ## Claim-side specification functions

These restate claim sentences in the claim's own words, to be compared
with the source-derived definitions above. -/

/-- Claim C9's description of the sanitizer: replace every
non-alphanumeric character with `_`, strip leading underscores, fall back
to the literal `n` when empty. -/
def sanitizeSpec (s : String) : String :=
  let r := (s.data.map (fun c => if c.isAlphanum then c else '_')).dropWhile (fun c => c = '_')
  if r = [] then "n" else ⟨r⟩

/-- Claim C4's asserted child arrangement: subpages listed in the
per-parent order list first, in that order, every remaining subpage in
ascending case-insensitive slug order. -/
def c4ClaimChildren (order : OrderFile) (slug : String) (cs : List PageNode) : List PageNode :=
  match order.getSub slug with
  | some subo =>
      subo.filterMap (fun s => cs.find? (fun c => c.slug = s)) ++
        ciSortNodes (cs.filter (fun c => ! subo.contains c.slug))
  | none => ciSortNodes cs

/-- Claim C4's asserted tree: order-listed pages first in list order,
remaining pages in ascending case-insensitive order, children of every
page arranged per `c4ClaimChildren`. -/
def c4ClaimTree (w : World) (M : String) : Option (List PageNode) :=
  (findModule w M).map (fun m =>
    let raw := (getPages m).map (rawPageNode M)
    let order := load_order m
    let listed := order.pages.filterMap (fun s =>
      (raw.find? (fun n => n.slug = s)).map (fun n =>
        { n with children := c4ClaimChildren order s n.children }))
    let rest := ciSortNodes (raw.filter (fun n => ! order.pages.contains n.slug))
    listed ++ rest.map (fun n => { n with children := c4ClaimChildren order n.slug n.children }))

/-- The amended child arrangement (what the code computes): for a page in
the order list with a per-parent entry, listed subpages first in listed
order and the *remaining subpages in filesystem enumeration order*;
otherwise the per-parent entry is ignored and children are sorted
case-insensitively. -/
def c4AmendedChildren (order : OrderFile) (slug : String) (cs : List PageNode) : List PageNode :=
  match order.getSub slug with
  | some subo =>
      subo.filterMap (fun s => cs.find? (fun c => c.slug = s)) ++
        cs.filter (fun c => ! subo.contains c.slug)
  | none => ciSortNodes cs

/-- The amended tree arrangement: order-listed pages first in list order
(children per `c4AmendedChildren`), then the remaining pages in ascending
case-insensitive order with byte-order ties (the `BTreeMap` order), their
children sorted case-insensitively with the per-parent lists ignored. -/
def c4AmendedTree (m : ModuleDir) (M : String) : List PageNode :=
  let raw := (getPages m).map (rawPageNode M)
  let order := load_order m
  let listed := order.pages.filterMap (fun s =>
    (raw.find? (fun n => n.slug = s)).map (fun n =>
      { n with children := c4AmendedChildren order s n.children }))
  let rest := ciSortNodes (byteSortNodes (raw.filter (fun n => ! order.pages.contains n.slug)))
  listed ++ rest.map (fun n => { n with children := ciSortNodes n.children })

/-- The (amended) claim C8 orphan classification of a single page from
its `meta.json` state: exactly the entry the aggregator pushes. -/
def orphanEntry (module_name page_slug : String) : MetaFile → Option String
  | .absent => some (module_name ++ "/" ++ page_slug ++ " (no meta)")
  | .unreadable => some (module_name ++ "/" ++ page_slug ++ " (unreadable meta)")
  | .invalid => some (module_name ++ "/" ++ page_slug ++ " (invalid meta)")
  | .parsed _ hasRoute hasTitle =>
      if ¬ hasRoute ∨ ¬ hasTitle then some (module_name ++ "/" ++ page_slug) else none

/-! ## Concrete worlds for counterexamples and witnesses -/

/-- A bare page directory. -/
def emptyPage (s : String) : PageDir :=
  { slug := s, pageJson := none, metaJson := .absent, subpages := none
    screenshots := [], html := [], css := [] }

/-- A bare subpage directory. -/
def emptySub (s : String) : SubpageDir :=
  { slug := s, pageJson := none, metaJson := .absent
    screenshots := [], html := [], css := [] }

/-- One module `shop` with a single page `a` and a warm-cache scenario. -/
def wC1 : World :=
  { modules := [{ name := "shop", pages := some [emptyPage "a"], orderFile := none }]
    projectName := "default" }

/-- Pages `list` and `create` on disk; the order file lists `create`
twice plus a stale slug. -/
def wC2w : World :=
  { modules := [{ name := "shop"
                  pages := some [emptyPage "list", emptyPage "create"]
                  orderFile := some { pages := ["create", "create", "ghost"], subpages := [] } }]
    projectName := "default" }

/-- Custom metadata that `create_module_page` would clobber. -/
def metaC3 : PageMeta :=
  { PageMeta.default with title := some "Listing", status := some "done"
                          route := some "/custom/route" }

/-- Module `shop` with an existing page `list` carrying custom metadata
and a subpage. -/
def wC3 : World :=
  { modules := [{ name := "shop"
                  pages := some [{ slug := "list", pageJson := some metaC3
                                   metaJson := .absent
                                   subpages := some [emptySub "detail"]
                                   screenshots := [], html := [], css := [] }]
                  orderFile := none }]
    projectName := "default" }

/-- Page `p` listed in the order file with per-parent list `[x]`, whose
subpages enumerate as `B`, `a`, `x`; and page `q` not in the order list
but with a per-parent list `[b]`. -/
def wC4 : World :=
  { modules := [{ name := "m"
                  pages := some [{ slug := "p", pageJson := none, metaJson := .absent
                                   subpages := some [emptySub "B", emptySub "a", emptySub "x"]
                                   screenshots := [], html := [], css := [] },
                                 { slug := "q", pageJson := none, metaJson := .absent
                                   subpages := some [emptySub "a", emptySub "b"]
                                   screenshots := [], html := [], css := [] }]
                  orderFile := some { pages := ["p"], subpages := [("p", ["x"]), ("q", ["b"])] } }]
    projectName := "default" }

/-- Pages `list`, `create` with order file `{pages:["create"]}` (the
claim's own scenario). -/
def wC4w : World :=
  { modules := [{ name := "shop"
                  pages := some [emptyPage "list", emptyPage "create"]
                  orderFile := some { pages := ["create"], subpages := [] } }]
    projectName := "default" }

/-- A module with one page `list` and a persisted (empty) order file, so
that `pages/_order.json` exists as a file. -/
def wC5 : World :=
  { modules := [{ name := "shop", pages := some [emptyPage "list"]
                  orderFile := some OrderFile.empty }]
    projectName := "default" }

/-- A bare module directory. -/
def mC6 : ModuleDir := { name := "m", pages := some [], orderFile := none }

/-- An order file whose pages list repeats `a` at non-adjacent
positions. -/
def ofC6 : OrderFile := { pages := ["a", "b", "a"], subpages := [] }

/-- Module `shop` with page `list` whose stored status is `old`. -/
def wC7 : World :=
  { modules := [{ name := "shop"
                  pages := some [{ slug := "list"
                                   pageJson := some { PageMeta.default with status := some "old" }
                                   metaJson := .absent, subpages := none
                                   screenshots := [], html := [], css := [] }]
                  orderFile := none }]
    projectName := "default" }

/-- The patch `{status: "done"}`. -/
def patchC7 : PageMetaUpdate := { PageMetaUpdate.empty with status := some "done" }

/-- A page whose `page.json` is complete (has `route` and `title`) but
whose `meta.json` is absent. -/
def wC8 : World :=
  { modules := [{ name := "shop"
                  pages := some [{ slug := "p1"
                                   pageJson := some { PageMeta.default with
                                     title := some "P1", route := some "/shop/p1" }
                                   metaJson := .absent, subpages := none
                                   screenshots := [], html := [], css := [] }]
                  orderFile := none }]
    projectName := "default" }

/-- The claim's scenario: two pages, the second one's `meta.json` parses
but lacks the `route` key. -/
def wC8w : World :=
  { modules := [{ name := "shop"
                  pages := some [{ slug := "good"
                                   pageJson := none
                                   metaJson := .parsed (some "done") true true
                                   subpages := none
                                   screenshots := [], html := [], css := [] },
                                 { slug := "bad"
                                   pageJson := none
                                   metaJson := .parsed (some "draft") false true
                                   subpages := none
                                   screenshots := [], html := [], css := [] }]
                  orderFile := none }]
    projectName := "default" }

/-- A module whose `pages` directory is absent. -/
def wC10w : World :=
  { modules := [{ name := "shop", pages := none, orderFile := none }]
    projectName := "default" }

/-- A node with its children dropped: the per-node metadata content. -/
def stripChildren (n : PageNode) : PageNode := { n with children := [] }

/-- The `BTreeMap` built by the page scan (stage 1 of the builder). -/
def buildMap (M : String) (ps : List PageDir) : List PageNode :=
  ps.foldl (fun a p => btreeInsert a (rawPageNode M p)) []

/-- Stage 2: the emitted order prefix and the remaining map. -/
def buildStart (o : OrderFile) (mp : List PageNode) : List PageNode × List PageNode :=
  if o.pages.isEmpty then ([], mp) else orderLoop o o.pages mp

/-- Stage 3: append the remaining pages, case-insensitively sorted, with
case-insensitively sorted children. -/
def buildFinish (st : List PageNode × List PageNode) : List PageNode :=
  st.1 ++ (stableSort ciLE st.2).map (fun n => { n with children := stableSort ciLE n.children })

/-- The `status` attribute of the named top-level node of a tree-build
result. -/
def okNodeStatus (e : Except String (List PageNode)) (s : String) : Option (Option String) :=
  match e with
  | .ok t => (t.find? (fun n => n.slug = s)).map (·.status)
  | .error _ => none

/-- The cache warmed by a `get_module_tree` on `wC1` at time 0. -/
def c1Warm : SitemapCache := (get_module_tree wC1 SitemapCache.new 0 "shop").2

/-- Deleting page `a` with the warm cache (within the TTL). -/
def c1Del : Except String String × World × SitemapCache :=
  delete_module_page wC1 c1Warm "shop" "a"

/-- The cache warmed by a `get_module_tree` on `wC7` at time 0. -/
def c7Warm : SitemapCache := (get_module_tree wC7 SitemapCache.new 0 "shop").2

/-- Patching `status` to `done` with the warm cache (within the TTL). -/
def c7Upd : Except String String × World × SitemapCache :=
  update_page_meta wC7 c7Warm "shop" "list" patchC7

/-! # Lemmas and claim theorems -/

/-- Pushing through a fold is mapping. -/
theorem foldl_push_eq_map (f : Char → Char) :
    ∀ (l acc : List Char), l.foldl (fun acc ch => acc ++ [f ch]) acc = acc ++ l.map f
  | [], acc => by simp
  | c :: l, acc => by
    simp only [List.foldl_cons, List.map_cons, foldl_push_eq_map f l]
    simp

/-- C9: `sanitize_id` replaces every character that is not alphanumeric
with `_`, strips leading underscores, and returns the literal `"n"` when
the result is empty; in particular `sanitize_id "My Page!" = "My_Page_"`
and `sanitize_id "___" = "n"`. -/
theorem C9_sanitize_id :
    (∀ s, sanitize_id s = sanitizeSpec s) ∧
    sanitize_id "My Page!" = "My_Page_" ∧ sanitize_id "___" = "n" := by
  refine ⟨fun s => ?_, by decide, by decide⟩
  unfold sanitize_id sanitizeSpec
  rw [foldl_push_eq_map]
  simp only [List.nil_append]
  cases hD : (s.data.map (fun c => if c.isAlphanum then c else '_')).dropWhile (fun c => c = '_') with
  | nil => simp
  | cons c cs => simp

/-- The order-application loop on an empty map emits nothing. -/
theorem orderLoop_map_nil (o : OrderFile) : ∀ os, orderLoop o os ([] : List PageNode) = ([], [])
  | [] => rfl
  | s :: rest => by
    simp only [orderLoop, btreeRemove]
    exact orderLoop_map_nil o rest

/-- C10: when the module directory exists but its `pages` subdirectory is
absent, `getTree` succeeds with an empty tree; the module-not-found
failure occurs exactly when the module directory itself is missing. -/
theorem C10_missing_pages_dir (w : World) (M : String) :
    (∀ m, findModule w M = some m → m.pages = none →
      build_module_tree_uncached w M = .ok []) ∧
    (findModule w M = none ↔ build_module_tree_uncached w M = .error "設計模組不存在") := by
  constructor
  · intro m hm hp
    unfold build_module_tree_uncached
    rw [hm]
    simp only [hp, Option.getD_none, List.foldl_nil]
    split
    · rfl
    · rw [orderLoop_map_nil]
      rfl
  · constructor
    · intro h
      unfold build_module_tree_uncached
      rw [h]
    · intro h
      cases hm : findModule w M with
      | none => rfl
      | some m =>
        exfalso
        unfold build_module_tree_uncached at h
        rw [hm] at h
        simp at h

/-- C10 witness: a concrete module with no `pages` directory yields the
empty tree, and a missing module yields the not-found error. -/
theorem C10_missing_pages_dir_witness :
    build_module_tree_uncached wC10w "shop" = .ok [] ∧
    build_module_tree_uncached wC10w "ghost" = .error "設計模組不存在" :=
  ⟨(C10_missing_pages_dir wC10w "shop").1 _ rfl rfl,
   (C10_missing_pages_dir wC10w "ghost").2.mp rfl⟩

/-- `vecDedup` only drops elements. -/
theorem vecDedup_sublist {α : Type} [DecidableEq α] : ∀ (l : List α), (vecDedup l).Sublist l
  | [] => by simp [vecDedup]
  | a :: rest => by
    rw [vecDedup]
    cases h : vecDedup rest with
    | nil => simp
    | cons b t =>
      show (if a = b then b :: t else a :: b :: t).Sublist (a :: rest)
      have hs := vecDedup_sublist rest
      rw [h] at hs
      by_cases hab : a = b
      · rw [if_pos hab]
        exact hs.trans (List.sublist_cons_self a rest)
      · rw [if_neg hab]
        exact hs.cons₂ a

/-- `vecDedup` keeps every element. -/
theorem vecDedup_mem {α : Type} [DecidableEq α] (x : α) :
    ∀ (l : List α), x ∈ vecDedup l ↔ x ∈ l
  | [] => by simp [vecDedup]
  | a :: rest => by
    rw [vecDedup]
    have ih := vecDedup_mem x rest
    cases h : vecDedup rest with
    | nil =>
      rw [h] at ih
      simp only [List.not_mem_nil, false_iff] at ih
      simp [List.mem_cons, ih]
    | cons b t =>
      rw [h] at ih
      show (x ∈ if a = b then b :: t else a :: b :: t) ↔ x ∈ a :: rest
      by_cases hab : a = b
      · rw [if_pos hab]
        subst hab
        have hs := vecDedup_sublist rest
        rw [h] at hs
        have ha : a ∈ rest := hs.subset (List.mem_cons_self a t)
        rw [ih, List.mem_cons]
        constructor
        · intro hx; exact Or.inr hx
        · rintro (rfl | hx)
          · exact ha
          · exact hx
      · rw [if_neg hab]
        simp [List.mem_cons, ih]

/-- `vecDedup (a :: l)` keeps a head. -/
theorem vecDedup_head {α : Type} [DecidableEq α] (a : α) (rest : List α) :
    ∃ c t, vecDedup (a :: rest) = c :: t := by
  rw [vecDedup]
  cases vecDedup rest with
  | nil => exact ⟨a, [], rfl⟩
  | cons b t =>
    show ∃ c u, (if a = b then b :: t else a :: b :: t) = c :: u
    by_cases hab : a = b
    · rw [if_pos hab]; exact ⟨b, t, rfl⟩
    · rw [if_neg hab]; exact ⟨a, b :: t, rfl⟩

/-- No two adjacent elements of `vecDedup l` are equal. -/
theorem vecDedup_chain' {α : Type} [DecidableEq α] : ∀ (l : List α), (vecDedup l).Chain' (· ≠ ·)
  | [] => by simp [vecDedup]
  | a :: rest => by
    rw [vecDedup]
    have ih := vecDedup_chain' rest
    cases h : vecDedup rest with
    | nil => simp
    | cons b t =>
      rw [h] at ih
      show List.Chain' (· ≠ ·) (if a = b then b :: t else a :: b :: t)
      by_cases hab : a = b
      · rw [if_pos hab]; exact ih
      · rw [if_neg hab]
        exact List.chain'_cons.mpr ⟨hab, ih⟩

/-- C6 counterexample: `save_order` on a pages list that repeats `a` at
non-adjacent positions writes the list unchanged — the written top-level
list still contains a duplicate slug, contradicting the claim that the
written lists contain no duplicates. -/
theorem C6_counterexample :
    (save_order mC6 ofC6).orderFile = some { pages := ["a", "b", "a"], subpages := [] } ∧
    ¬ (["a", "b", "a"] : List String).Nodup := by
  exact ⟨rfl, by decide⟩

/-- C6 (amended): `save_order` deduplicates only *adjacent* repetitions:
every written list is a sublist of the input with the same set of slugs
and with no two adjacent entries equal (duplicates at non-adjacent
positions survive). -/
theorem C6_amended (m : ModuleDir) (of : OrderFile) (w' : OrderFile)
    (h : (save_order m of).orderFile = some w') :
    (w'.pages.Chain' (· ≠ ·) ∧ w'.pages.Sublist of.pages ∧ (∀ a, a ∈ w'.pages ↔ a ∈ of.pages)) ∧
    (∀ kv ∈ w'.subpages, kv.2.Chain' (· ≠ ·) ∧
      ∃ l, (kv.1, l) ∈ of.subpages ∧ kv.2.Sublist l ∧ (∀ a, a ∈ kv.2 ↔ a ∈ l)) := by
  have hw : w' = { pages := vecDedup of.pages
                   subpages := of.subpages.map (fun e => (e.1, vecDedup e.2)) } := by
    unfold save_order at h
    exact (Option.some_injective _ h).symm
  subst hw
  refine ⟨⟨vecDedup_chain' _, vecDedup_sublist _, fun a => vecDedup_mem a _⟩, ?_⟩
  intro kv hkv
  simp only [List.mem_map] at hkv
  obtain ⟨e, he, rfl⟩ := hkv
  exact ⟨vecDedup_chain' _, e.2, he, vecDedup_sublist _, fun a => vecDedup_mem a _⟩

/-- C6 amended witness: the concrete non-adjacent duplicate input. -/
theorem C6_amended_witness :
    (["a", "b", "a"] : List String).Chain' (· ≠ ·) ∧
    (["a", "b", "a"] : List String).Sublist ofC6.pages ∧
    (∀ a, a ∈ (["a", "b", "a"] : List String) ↔ a ∈ ofC6.pages) := by
  have h := C6_amended mC6 ofC6 { pages := ["a", "b", "a"], subpages := [] } rfl
  exact h.1

/-- C5 counterexample: `set_page_order` accepts the slug `_order.json`,
which exists as a file but is not a page directory, instead of returning
an error as the claim requires. -/
theorem C5_counterexample :
    (set_page_order wC5 SitemapCache.new "shop" ["_order.json"]).1 = .ok "已更新頁面順序" ∧
    (findModule wC5 "shop").map (fun m => hasPage m "_order.json") = some false :=
  ⟨rfl, rfl⟩

/-- C5 (amended): when the referenced-slug list contains a slug whose
*path* does not exist (`Path::exists`, which also accepts the
`_order.json` file itself — not an is-a-directory check), both
`set_page_order` and `set_subpage_order` fail naming the first such slug
and leave the world (hence the persisted order file, byte for byte) and
the cache unchanged. -/
theorem C5_amended (w : World) (c : SitemapCache) (M : String) (m : ModuleDir)
    (hm : findModule w M = some m) :
    (∀ order s, order.find? (fun t => ! pathExistsInPages m t) = some s →
      set_page_order w c M order = (.error ("頁面不存在: " ++ s), w, c)) ∧
    (∀ parent order s, order.find? (fun t => ! (subpageSlugs m parent).contains t) = some s →
      set_subpage_order w c M parent order = (.error ("子頁不存在: " ++ s), w, c)) := by
  constructor
  · intro order s h
    unfold set_page_order
    simp only [hm, h]
  · intro parent order s h
    unfold set_subpage_order
    simp only [hm, h]

/-- C5 amended witness: a nonexistent slug `ghost` is rejected by both
order setters with the world unchanged. -/
theorem C5_amended_witness :
    set_page_order wC5 SitemapCache.new "shop" ["ghost"] =
      (.error ("頁面不存在: " ++ "ghost"), wC5, SitemapCache.new) ∧
    set_subpage_order wC5 SitemapCache.new "shop" "list" ["ghost"] =
      (.error ("子頁不存在: " ++ "ghost"), wC5, SitemapCache.new) := by
  have h := C5_amended wC5 SitemapCache.new "shop" _ rfl
  exact ⟨h.1 ["ghost"] "ghost" rfl, h.2 "list" ["ghost"] "ghost" rfl⟩

/-! ## Point-update and lookup lemmas -/

/-- `find?` commutes with a map that does not change the predicate. -/
theorem find?_map_pred {α : Type} (g : α → α) (p : α → Bool) (l : List α)
    (hc : ∀ a, p (g a) = p a) :
    (l.map g).find? p = (l.find? p).map g := by
  induction l with
  | nil => rfl
  | cons a l ih =>
    simp only [List.map_cons, List.find?_cons]
    rw [hc a]
    cases p a <;> simp [ih]

/-- Updating the module directory named `M` commutes with module lookup
(the update must preserve names). -/
theorem findModule_updateModule (w : World) (M N : String) (f : ModuleDir → ModuleDir)
    (hf : ∀ m, (f m).name = m.name) :
    findModule (updateModule w M f) N =
      (findModule w N).map (fun m => if m.name = M then f m else m) := by
  unfold findModule updateModule
  exact find?_map_pred _ _ _ (fun m => by by_cases h : m.name = M <;> simp [h, hf])

/-- Page lookup through a slug-targeted, slug-preserving page update. -/
theorem find?_pointUpdate (ps : List PageDir) (slug : String) (upd : PageDir → PageDir)
    (hupd : ∀ p, (upd p).slug = p.slug) (s' : String) :
    (ps.map (fun p => if p.slug = slug then upd p else p)).find? (fun p => p.slug = s') =
      (ps.find? (fun p => p.slug = s')).map (fun p => if p.slug = slug then upd p else p) :=
  find?_map_pred _ _ _ (fun p => by by_cases h : p.slug = slug <;> simp [h, hupd])

/-- A found module is named as searched. -/
theorem findModule_name {w : World} {N : String} {m : ModuleDir}
    (h : findModule w N = some m) : m.name = N := by
  have := List.find?_some h
  simpa using this

/-- A found page carries the searched slug. -/
theorem find?_slug {ps : List PageDir} {s : String} {p : PageDir}
    (h : ps.find? (fun q => q.slug = s) = some p) : p.slug = s := by
  have := List.find?_some h
  simpa using this

/-- C3 counterexample: `create_module_page` on the already-existing slug
`list` succeeds (no `AlreadyExists` error) and replaces the previously
persisted metadata sidecar with the default created metadata. -/
theorem C3_counterexample :
    (create_module_page wC3 SitemapCache.new "shop" "list").1 =
      .ok { slug := "list", path := "/shop/list" } ∧
    (lookupPage wC3 "shop" "list").map (·.pageJson) = some (some metaC3) ∧
    (lookupPage (create_module_page wC3 SitemapCache.new "shop" "list").2.1 "shop" "list").map
        (·.pageJson) = some (some (createdMeta "shop" "list")) ∧
    createdMeta "shop" "list" ≠ metaC3 :=
  ⟨rfl, rfl, rfl, by decide⟩

/-- C3 (amended): `create_module_page` with a slug that already exists
under the module does not fail — it returns the `PageInfo`, overwrites
the existing page's `page.json` sidecar with the default created
metadata while preserving the page's subpages, `meta.json` and asset
folders, leaves sibling pages, the order file and other modules
untouched, and invalidates the module's cache entry. -/
theorem C3_amended (w : World) (c : SitemapCache) (M slug : String) (m : ModuleDir)
    (hm : findModule w M = some m)
    (h1 : slug.data.all Char.isWhitespace = false)
    (h2 : slug.data.contains '/' = false)
    (p : PageDir) (hp : (getPages m).find? (fun q => q.slug = slug) = some p) :
    (create_module_page w c M slug).1 =
      .ok { slug := slug, path := "/" ++ M ++ "/" ++ slug } ∧
    lookupPage (create_module_page w c M slug).2.1 M slug =
      some { p with pageJson := some (createdMeta M slug) } ∧
    (∀ s', s' ≠ slug →
      lookupPage (create_module_page w c M slug).2.1 M s' = lookupPage w M s') ∧
    (findModule (create_module_page w c M slug).2.1 M).map (·.orderFile) = some m.orderFile ∧
    (∀ N, N ≠ M → findModule (create_module_page w c M slug).2.1 N = findModule w N) ∧
    (create_module_page w c M slug).2.2 = c.invalidate_module M := by
  have hmem : p ∈ getPages m := List.mem_of_find?_eq_some hp
  have hps : p.slug = slug := find?_slug hp
  have hany : (getPages m).any (fun q => q.slug = slug) = true := by
    rw [List.any_eq_true]
    exact ⟨p, hmem, by simp [hps]⟩
  have hname : m.name = M := findModule_name hm
  set f : ModuleDir → ModuleDir := fun mm =>
    let ps := getPages mm
    let ps' :=
      if ps.any (fun q => q.slug = slug) then
        ps.map (fun q =>
          if q.slug = slug then { q with pageJson := some (createdMeta M slug) } else q)
      else
        ps ++ [{ slug := slug, pageJson := some (createdMeta M slug)
                 metaJson := .absent, subpages := none
                 screenshots := [], html := [], css := [] }]
    { mm with pages := some ps' } with hfdef
  have hrun : create_module_page w c M slug =
      (.ok { slug := slug, path := "/" ++ M ++ "/" ++ slug },
       updateModule w M f, c.invalidate_module M) := by
    unfold create_module_page
    rw [hm]
    simp only [h1, h2]
    rfl
  have hfname : ∀ mm, (f mm).name = mm.name := fun mm => rfl
  have hfindM : findModule (updateModule w M f) M = some (f m) := by
    rw [findModule_updateModule w M M f hfname, hm]
    simp [hname]
  have hfm_pages : getPages (f m) =
      (getPages m).map (fun q =>
        if q.slug = slug then { q with pageJson := some (createdMeta M slug) } else q) := by
    show ((some _ : Option (List PageDir)).getD []) = _
    simp only [Option.getD_some]
    rw [if_pos hany]
  refine ⟨by rw [hrun], ?_, ?_, ?_, ?_, by rw [hrun]⟩
  · rw [hrun]
    show (findModule (updateModule w M f) M).bind
        (fun mm => (getPages mm).find? (fun q => q.slug = slug)) = _
    rw [hfindM]
    simp only [Option.some_bind]
    rw [hfm_pages, find?_pointUpdate _ _ _ (fun q => by by_cases h : q.slug = slug <;> simp [h]),
      hp]
    simp [hps]
  · intro s' hs'
    rw [hrun]
    show (findModule (updateModule w M f) M).bind
        (fun mm => (getPages mm).find? (fun q => q.slug = s')) =
      (findModule w M).bind (fun mm => (getPages mm).find? (fun q => q.slug = s'))
    rw [hfindM, hm]
    simp only [Option.some_bind]
    rw [hfm_pages, find?_pointUpdate _ _ _ (fun q => by by_cases h : q.slug = slug <;> simp [h])]
    cases hq : (getPages m).find? (fun q => q.slug = s') with
    | none => rfl
    | some q =>
      have : q.slug = s' := find?_slug hq
      simp [this, hs']
  · rw [hrun, hfindM]
    rfl
  · intro N hN
    rw [hrun, findModule_updateModule w M N f hfname]
    cases hq : findModule w N with
    | none => rfl
    | some q =>
      have : q.name = N := findModule_name hq
      simp [this, hN]

/-- C3 amended witness: the concrete overwrite on `wC3` — success,
sidecar replaced, subpage list preserved. -/
theorem C3_amended_witness :
    (create_module_page wC3 SitemapCache.new "shop" "list").1 =
      .ok { slug := "list", path := "/shop/list" } ∧
    lookupPage (create_module_page wC3 SitemapCache.new "shop" "list").2.1 "shop" "list" =
      some { slug := "list", pageJson := some (createdMeta "shop" "list")
             metaJson := .absent, subpages := some [emptySub "detail"]
             screenshots := [], html := [], css := [] } := by
  have h := C3_amended wC3 SitemapCache.new "shop" "list" _ rfl rfl rfl _ rfl
  exact ⟨h.1, h.2.1⟩

/-- A read that misses the cache returns the uncached rebuild. -/
theorem get_module_tree_miss (w : World) (c : SitemapCache) (now : Nat) (M : String)
    (h : cacheLookup c M = none) :
    (get_module_tree w c now M).1 = build_module_tree_uncached w M := by
  unfold get_module_tree SitemapCache.is_module_tree_fresh
  rw [h]
  cases hb : build_module_tree_uncached w M <;> simp [hb]

/-- C1 counterexample: deleting page `a` while the module's tree is
cached does not invalidate the cache — `get_module_tree` one tick later
(within the 300-second TTL) still returns the deleted page, although an
uncached rebuild shows it gone. -/
theorem C1_counterexample :
    c1Del.1 = .ok "已刪除頁面: a" ∧
    okSlugs (get_module_tree c1Del.2.1 c1Del.2.2 1 "shop").1 = some ["a"] ∧
    okSlugs (build_module_tree_uncached c1Del.2.1 "shop") = some [] :=
  ⟨rfl, rfl, rfl⟩

/-- C1 (amended): only the two create commands invalidate the cache.  On
success they install `invalidate_module`, which removes the module's tree
entry and clears the global analytics entry, so the next
`get_module_tree` rebuilds from the filesystem; `delete_module_page`,
`rename_module_page`, `set_page_order`, `set_subpage_order` and
`update_page_meta` always return the cache untouched, so within the TTL a
subsequent `get_module_tree` may serve a tree that does not reflect those
mutations. -/
theorem C1_amended :
    (∀ w c M s pi, (create_module_page w c M s).1 = .ok pi →
      (create_module_page w c M s).2.2 = c.invalidate_module M) ∧
    (∀ w c M ps s pi, (create_subpage w c M ps s).1 = .ok pi →
      (create_subpage w c M ps s).2.2 = c.invalidate_module M) ∧
    (∀ c M, cacheLookup (SitemapCache.invalidate_module c M) M = none ∧
      (SitemapCache.invalidate_module c M).analytics = none) ∧
    (∀ w c now M, cacheLookup c M = none →
      (get_module_tree w c now M).1 = build_module_tree_uncached w M) ∧
    (∀ w c M s, (delete_module_page w c M s).2.2 = c) ∧
    (∀ w c M s t, (rename_module_page w c M s t).2.2 = c) ∧
    (∀ w c M o, (set_page_order w c M o).2.2 = c) ∧
    (∀ w c M ps o, (set_subpage_order w c M ps o).2.2 = c) ∧
    (∀ w c M s u, (update_page_meta w c M s u).2.2 = c) := by
  refine ⟨?_, ?_, ?_, ?_, ?_, ?_, ?_, ?_, ?_⟩
  · intro w c M s pi h
    unfold create_module_page at h ⊢
    cases hm : findModule w M with
    | none => rw [hm] at h; simp at h
    | some m => split_ifs at h ⊢ <;> simp_all
  · intro w c M ps s pi h
    unfold create_subpage at h ⊢
    split_ifs at h ⊢ <;> simp_all
  · intro c M
    constructor
    · unfold cacheLookup SitemapCache.invalidate_module
      have : (c.module_trees.filter (fun e => ¬ e.1 = M)).find?
          (fun e => e.1 = M) = none := by
        rw [List.find?_eq_none]
        intro x hx
        have hx2 := (List.mem_filter.mp hx).2
        simp only [decide_not] at hx2
        simpa using hx2
      rw [this]
      rfl
    · rfl
  · intro w c now M h
    exact get_module_tree_miss w c now M h
  · intro w c M s
    unfold delete_module_page
    repeat' first | split | (dsimp only)
    all_goals rfl
  · intro w c M s t
    unfold rename_module_page
    repeat' first | split | (dsimp only)
    all_goals rfl
  · intro w c M o
    unfold set_page_order
    repeat' first | split | (dsimp only)
    all_goals rfl
  · intro w c M ps o
    unfold set_subpage_order
    repeat' first | split | (dsimp only)
    all_goals rfl
  · intro w c M s u
    unfold update_page_meta
    repeat' first | split | (dsimp only)
    all_goals rfl

/-- C1 amended witness: concrete instantiations — a create invalidates
the warm cache and the next read rebuilds, while a delete leaves the warm
cache in place. -/
theorem C1_amended_witness :
    (create_module_page wC1 c1Warm "shop" "b").2.2 = c1Warm.invalidate_module "shop" ∧
    cacheLookup (c1Warm.invalidate_module "shop") "shop" = none ∧
    (get_module_tree wC1 (c1Warm.invalidate_module "shop") 1 "shop").1 =
      build_module_tree_uncached wC1 "shop" ∧
    (delete_module_page wC1 c1Warm "shop" "a").2.2 = c1Warm := by
  have h := C1_amended
  exact ⟨h.1 wC1 c1Warm "shop" "b" _ rfl,
    (h.2.2.1 c1Warm "shop").1,
    h.2.2.2.1 wC1 (c1Warm.invalidate_module "shop") 1 "shop" ((h.2.2.1 c1Warm "shop").1),
    h.2.2.2.2.1 wC1 c1Warm "shop" "a"⟩

/-! ## Permutation lemmas for the tree builder -/

/-- `orderedInsert` is a permutation-preserving insertion. -/
theorem orderedInsert_perm {α : Type} (le : α → α → Bool) (a : α) :
    ∀ l : List α, (orderedInsert le a l).Perm (a :: l)
  | [] => .refl _
  | b :: l => by
    rw [orderedInsert]
    by_cases h : le a b
    · rw [if_pos h]
    · rw [if_neg h]
      exact ((orderedInsert_perm le a l).cons b).trans (List.Perm.swap a b l)

/-- `stableSort` permutes its input. -/
theorem stableSort_perm {α : Type} (le : α → α → Bool) :
    ∀ l : List α, (stableSort le l).Perm l
  | [] => .refl _
  | a :: l =>
    (orderedInsert_perm le a (stableSort le l)).trans ((stableSort_perm le l).cons a)

/-- Membership in a `stableSort`. -/
theorem stableSort_mem {α : Type} {le : α → α → Bool} {l : List α} {x : α} :
    x ∈ stableSort le l ↔ x ∈ l :=
  (stableSort_perm le l).mem_iff

/-- Re-sorting children leaves the slug list unchanged. -/
theorem map_slug_set_children (f : PageNode → List PageNode) (l : List PageNode) :
    ((l.map (fun n => { n with children := f n })).map (·.slug)) = l.map (·.slug) := by
  rw [List.map_map]
  rfl

/-- `btreeInsert` of a fresh key adds exactly that slug. -/
theorem btreeInsert_slugs {l : List PageNode} {x : PageNode}
    (hx : x.slug ∉ l.map (·.slug)) :
    ((btreeInsert l x).map (·.slug)).Perm (x.slug :: l.map (·.slug)) := by
  induction l with
  | nil => simp [btreeInsert]
  | cons y ys ih =>
    rw [btreeInsert]
    by_cases h1 : charListLt x.slug.data y.slug.data
    · rw [if_pos h1]; simp
    · rw [if_neg h1]
      have h2 : ¬ x.slug = y.slug := fun hc => hx (by simp [hc])
      rw [if_neg h2]
      have hx' : x.slug ∉ ys.map (·.slug) := fun hc => hx (by simp [hc])
      simp only [List.map_cons]
      exact ((ih hx').cons y.slug).trans (List.Perm.swap x.slug y.slug _)

/-- Folding `btreeInsert` over pages with fresh, distinct slugs collects
exactly the accumulator's and the pages' slugs. -/
theorem foldl_btree_slugs (M : String) :
    ∀ (ps : List PageDir) (acc : List PageNode),
      ((ps.map (·.slug)) ++ acc.map (·.slug)).Nodup →
      (((ps.foldl (fun a p => btreeInsert a (rawPageNode M p)) acc).map (·.slug))).Perm
        (acc.map (·.slug) ++ ps.map (·.slug))
  | [], acc => by simp
  | p :: ps, acc => by
    intro hnd
    simp only [List.map_cons, List.cons_append] at hnd
    have hnd1 := List.nodup_cons.mp hnd
    have hpn : (rawPageNode M p).slug ∉ acc.map (·.slug) := by
      show p.slug ∉ acc.map (·.slug)
      intro hc
      exact hnd1.1 (List.mem_append.mpr (Or.inr hc))
    have hperm := btreeInsert_slugs hpn
    have hnd' : (ps.map (·.slug) ++ (btreeInsert acc (rawPageNode M p)).map (·.slug)).Nodup := by
      have hp1 : (ps.map (·.slug) ++ (btreeInsert acc (rawPageNode M p)).map (·.slug)).Perm
          (ps.map (·.slug) ++ ((rawPageNode M p).slug :: acc.map (·.slug))) :=
        hperm.append_left _
      have hp2 : (ps.map (·.slug) ++ ((rawPageNode M p).slug :: acc.map (·.slug))).Perm
          (p.slug :: (ps.map (·.slug) ++ acc.map (·.slug))) := List.perm_middle
      exact ((hp1.trans hp2).symm.nodup_iff).mp hnd
    have ih := foldl_btree_slugs M ps (btreeInsert acc (rawPageNode M p)) hnd'
    simp only [List.foldl_cons]
    refine ih.trans ?_
    refine (hperm.append_right _).trans ?_
    show ((rawPageNode M p).slug :: acc.map (·.slug) ++ ps.map (·.slug)).Perm _
    simp only [List.map_cons]
    exact List.perm_middle.symm

/-- `btreeRemove` is find-and-erase. -/
theorem btreeRemove_eq : ∀ (l : List PageNode) (k : String),
    btreeRemove l k = (l.find? (fun n => n.slug = k), l.eraseP (fun n => n.slug = k))
  | [], _ => rfl
  | x :: xs, k => by
    rw [btreeRemove]
    by_cases h : x.slug = k
    · simp [h, List.eraseP_cons_of_pos]
    · simp only [h, if_false, decide_eq_true_eq]
      rw [List.find?_cons_of_neg _ (by simpa using h),
        List.eraseP_cons_of_neg (by simpa using h), btreeRemove_eq xs k]

/-- A list is the found element plus its erasure. -/
theorem perm_cons_eraseP {α : Type} {p : α → Bool} :
    ∀ {l : List α} {n : α}, l.find? p = some n → l.Perm (n :: l.eraseP p)
  | x :: xs, n, h => by
    rw [List.find?_cons] at h
    cases hx : p x with
    | true =>
      rw [hx] at h
      cases h
      rw [List.eraseP_cons_of_pos hx]
    | false =>
      rw [hx] at h
      rw [List.eraseP_cons_of_neg (by simp [hx])]
      exact ((perm_cons_eraseP h).cons x).trans (List.Perm.swap n x _)

/-- The order loop partitions the map's slugs: emitted plus remaining is
a permutation of the input map's slugs. -/
theorem orderLoop_slugs (o : OrderFile) :
    ∀ (os : List String) (m : List PageNode),
      (((orderLoop o os m).1.map (·.slug)) ++ (orderLoop o os m).2.map (·.slug)).Perm
        (m.map (·.slug))
  | [], m => by simp [orderLoop]
  | s :: rest, m => by
    rw [orderLoop, btreeRemove_eq]
    cases hf : m.find? (fun n => n.slug = s) with
    | none =>
      have he : m.eraseP (fun n => n.slug = s) = m :=
        List.eraseP_of_forall_not (by simpa using List.find?_eq_none.mp hf)
      show (((orderLoop o rest (m.eraseP (fun n => n.slug = s))).1.map (·.slug)) ++ _).Perm _
      rw [he]
      exact orderLoop_slugs o rest m
    | some n =>
      show ((({ n with children := sortChildrenFor o s n.children } ::
          (orderLoop o rest (m.eraseP (fun q => q.slug = s))).1).map (·.slug)) ++
          (orderLoop o rest (m.eraseP (fun q => q.slug = s))).2.map (·.slug)).Perm
        (m.map (·.slug))
      simp only [List.map_cons, List.cons_append]
      have ih := orderLoop_slugs o rest (m.eraseP (fun q => q.slug = s))
      have hm : (m.map (·.slug)).Perm
          (n.slug :: (m.eraseP (fun q => q.slug = s)).map (·.slug)) := by
        have := (perm_cons_eraseP hf).map (·.slug)
        simpa using this
      exact (ih.cons n.slug).trans hm.symm

/-- Everything in `btreeInsert l x` is `x` or was in `l`. -/
theorem mem_btreeInsert {l : List PageNode} {x n : PageNode}
    (h : n ∈ btreeInsert l x) : n = x ∨ n ∈ l := by
  induction l with
  | nil => simpa [btreeInsert] using h
  | cons y ys ih =>
    rw [btreeInsert] at h
    by_cases h1 : charListLt x.slug.data y.slug.data
    · rw [if_pos h1] at h
      rcases List.mem_cons.mp h with rfl | h
      · exact Or.inl rfl
      · exact Or.inr h
    · rw [if_neg h1] at h
      by_cases h2 : x.slug = y.slug
      · rw [if_pos h2] at h
        rcases List.mem_cons.mp h with rfl | h
        · exact Or.inl rfl
        · exact Or.inr (List.mem_cons.mpr (Or.inr h))
      · rw [if_neg h2] at h
        rcases List.mem_cons.mp h with rfl | h
        · exact Or.inr (List.mem_cons.mpr (Or.inl rfl))
        · rcases ih h with h | h
          · exact Or.inl h
          · exact Or.inr (List.mem_cons.mpr (Or.inr h))

/-- Everything in the built map is a raw page node. -/
theorem mem_foldl_btree (M : String) :
    ∀ (ps : List PageDir) (acc : List PageNode) (n : PageNode),
      n ∈ ps.foldl (fun a p => btreeInsert a (rawPageNode M p)) acc →
      n ∈ acc ∨ ∃ p ∈ ps, n = rawPageNode M p
  | [], acc, n => fun h => Or.inl (by simpa using h)
  | p :: ps, acc, n => by
    intro h
    simp only [List.foldl_cons] at h
    rcases mem_foldl_btree M ps _ n h with h | ⟨q, hq, rfl⟩
    · rcases mem_btreeInsert h with rfl | h
      · exact Or.inr ⟨p, List.mem_cons_self p ps, rfl⟩
      · exact Or.inl h
    · exact Or.inr ⟨q, List.mem_cons.mpr (Or.inr hq), rfl⟩

/-- Everything the order loop emits is a map node with re-sorted
children; the remaining map is a subset of the input. -/
theorem orderLoop_mem (o : OrderFile) :
    ∀ (os : List String) (m : List PageNode),
      (∀ n ∈ (orderLoop o os m).1, ∃ n₀ ∈ m, ∃ cs, n = { n₀ with children := cs }) ∧
      (∀ n ∈ (orderLoop o os m).2, n ∈ m)
  | [], m => by simp [orderLoop]
  | s :: rest, m => by
    rw [orderLoop, btreeRemove_eq]
    have hsub : ∀ n ∈ m.eraseP (fun q => q.slug = s), n ∈ m :=
      fun n hn => (List.eraseP_sublist m).subset hn
    cases hf : m.find? (fun n => n.slug = s) with
    | none =>
      show (∀ n ∈ (orderLoop o rest (m.eraseP (fun q => q.slug = s))).1, _) ∧ _
      have ih := orderLoop_mem o rest (m.eraseP (fun q => q.slug = s))
      constructor
      · intro n hn
        obtain ⟨n₀, hn₀, cs, rfl⟩ := ih.1 n hn
        exact ⟨n₀, hsub n₀ hn₀, cs, rfl⟩
      · intro n hn
        exact hsub n (ih.2 n hn)
    | some nf =>
      have hnf : nf ∈ m := List.mem_of_find?_eq_some hf
      have ih := orderLoop_mem o rest (m.eraseP (fun q => q.slug = s))
      constructor
      · intro n hn
        rcases List.mem_cons.mp hn with rfl | hn
        · exact ⟨nf, hnf, _, rfl⟩
        · obtain ⟨n₀, hn₀, cs, rfl⟩ := ih.1 n hn
          exact ⟨n₀, hsub n₀ hn₀, cs, rfl⟩
      · intro n hn
        exact hsub n (ih.2 n hn)

/-- A successful build, decomposed into its three stages. -/
theorem build_ok (w : World) (M : String) (m : ModuleDir) (hm : findModule w M = some m) :
    build_module_tree_uncached w M =
      .ok (buildFinish (buildStart (load_order m) (buildMap M (getPages m)))) := by
  unfold build_module_tree_uncached
  rw [hm]
  rfl

/-- Slugs of the finish stage. -/
theorem buildFinish_slugs (st : List PageNode × List PageNode) :
    slugsOf (buildFinish st) = st.1.map (·.slug) ++ (stableSort ciLE st.2).map (·.slug) := by
  unfold buildFinish slugsOf
  rw [List.map_append, map_slug_set_children]

/-- The start stage partitions the map's slugs. -/
theorem buildStart_slugs (o : OrderFile) (mp : List PageNode) :
    ((buildStart o mp).1.map (·.slug) ++ (buildStart o mp).2.map (·.slug)).Perm
      (mp.map (·.slug)) := by
  unfold buildStart
  split
  · simp
  · exact orderLoop_slugs o o.pages mp

/-- C2: for every module whose directory exists, the tree's top-level
page slugs are exactly the page directories under `pages/`, each exactly
once, regardless of the order file's content (duplicate or stale order
entries are dropped). -/
theorem C2_tree_slugs (w : World) (M : String) (m : ModuleDir) (ps : List PageDir)
    (hm : findModule w M = some m) (hp : m.pages = some ps)
    (hnd : (ps.map (·.slug)).Nodup) :
    ∃ t, build_module_tree_uncached w M = .ok t ∧
      (slugsOf t).Perm (ps.map (·.slug)) ∧ (slugsOf t).Nodup := by
  have hps : getPages m = ps := by rw [getPages, hp]; rfl
  rw [build_ok w M m hm, hps]
  refine ⟨_, rfl, ?_⟩
  have hmp : ((buildMap M ps).map (·.slug)).Perm (ps.map (·.slug)) := by
    have h := foldl_btree_slugs M ps [] (by simpa using hnd)
    simpa [buildMap] using h
  have hperm : (slugsOf (buildFinish (buildStart (load_order m) (buildMap M ps)))).Perm
      (ps.map (·.slug)) := by
    rw [buildFinish_slugs]
    have hsorted : ((stableSort ciLE (buildStart (load_order m) (buildMap M ps)).2).map
        (·.slug)).Perm ((buildStart (load_order m) (buildMap M ps)).2.map (·.slug)) :=
      (stableSort_perm ciLE _).map _
    exact ((hsorted.append_left _).trans
      (buildStart_slugs (load_order m) (buildMap M ps))).trans hmp
  exact ⟨hperm, hperm.nodup_iff.mpr hnd⟩

/-- C2 witness: pages `list`, `create` with an order file listing
`create` twice plus a stale slug still yield each directory exactly
once. -/
theorem C2_tree_slugs_witness :
    ∃ t, build_module_tree_uncached wC2w "shop" = .ok t ∧
      (slugsOf t).Perm ["list", "create"] ∧ (slugsOf t).Nodup := by
  have h := C2_tree_slugs wC2w "shop" _ [emptyPage "list", emptyPage "create"] rfl rfl
    (by decide)
  simpa using h

/-! ## Metadata overlay characterization -/

/-- One `if let Some(v)` step, `title` field. -/
theorem overlay_step_title (cur : PageMeta) (o : Option String) :
    (match o with | some v => { cur with title := some v } | none => cur) =
      { cur with title := o.or cur.title } := by cases o <;> rfl

/-- One `if let Some(v)` step, `status` field. -/
theorem overlay_step_status (cur : PageMeta) (o : Option String) :
    (match o with | some v => { cur with status := some v } | none => cur) =
      { cur with status := o.or cur.status } := by cases o <;> rfl

/-- One `if let Some(v)` step, `route` field. -/
theorem overlay_step_route (cur : PageMeta) (o : Option String) :
    (match o with | some v => { cur with route := some v } | none => cur) =
      { cur with route := o.or cur.route } := by cases o <;> rfl

/-- One `if let Some(v)` step, `notes` field. -/
theorem overlay_step_notes (cur : PageMeta) (o : Option String) :
    (match o with | some v => { cur with notes := some v } | none => cur) =
      { cur with notes := o.or cur.notes } := by cases o <;> rfl

/-- One `if let Some(v)` step, `path` field. -/
theorem overlay_step_path (cur : PageMeta) (o : Option String) :
    (match o with | some v => { cur with path := some v } | none => cur) =
      { cur with path := o.or cur.path } := by cases o <;> rfl

/-- One `if let Some(v)` step, `domain` field. -/
theorem overlay_step_domain (cur : PageMeta) (o : Option String) :
    (match o with | some v => { cur with domain := some v } | none => cur) =
      { cur with domain := o.or cur.domain } := by cases o <;> rfl

/-- One `if let Some(v)` step, `area` field. -/
theorem overlay_step_area (cur : PageMeta) (o : Option String) :
    (match o with | some v => { cur with area := some v } | none => cur) =
      { cur with area := o.or cur.area } := by cases o <;> rfl

/-- One `if let Some(v)` step, `component` field. -/
theorem overlay_step_component (cur : PageMeta) (o : Option String) :
    (match o with | some v => { cur with component := some v } | none => cur) =
      { cur with component := o.or cur.component } := by cases o <;> rfl

/-- One `if let Some(v)` step, `action` field. -/
theorem overlay_step_action (cur : PageMeta) (o : Option String) :
    (match o with | some v => { cur with action := some v } | none => cur) =
      { cur with action := o.or cur.action } := by cases o <;> rfl

/-- One `if let Some(v)` step, `class` field. -/
theorem overlay_step_class (cur : PageMeta) (o : Option String) :
    (match o with | some v => { cur with «class» := some v } | none => cur) =
      { cur with «class» := o.or cur.«class» } := by cases o <;> rfl

/-- One `if let Some(v)` step, `links` field. -/
theorem overlay_step_links (cur : PageMeta) (o : Option (List LinkMeta)) :
    (match o with | some v => { cur with links := some v } | none => cur) =
      { cur with links := o.or cur.links } := by cases o <;> rfl

/-- The overlay in closed form: patched fields take the patch value,
every other field — including `slug` and `mermaid_id`, which the patch
cannot touch — keeps the stored value. -/
theorem overlayMeta_eq (cur : PageMeta) (u : PageMetaUpdate) :
    overlayMeta cur u =
      { slug := cur.slug
        title := u.title.or cur.title
        path := u.path.or cur.path
        status := u.status.or cur.status
        route := u.route.or cur.route
        notes := u.notes.or cur.notes
        domain := u.domain.or cur.domain
        area := u.area.or cur.area
        component := u.component.or cur.component
        action := u.action.or cur.action
        «class» := u.«class».or cur.«class»
        mermaid_id := cur.mermaid_id
        links := u.links.or cur.links } := by
  obtain ⟨t, s, r, n, pa, d, ar, co, ac, cl, li⟩ := u
  cases t <;> cases s <;> cases r <;> cases n <;> cases pa <;> cases d <;> cases ar <;>
    cases co <;> cases ac <;> cases cl <;> cases li <;> rfl

/-! ## Per-node content of the built tree -/

/-- In a slug-nodup list the member with a given slug is what `find?`
returns. -/
theorem find?_slug_of_mem_nodup :
    ∀ {t : List PageNode}, ((t.map (·.slug)).Nodup) →
      ∀ {n : PageNode}, n ∈ t → t.find? (fun q => q.slug = n.slug) = some n := by
  intro t
  induction t with
  | nil => intro _ n hn; simp at hn
  | cons h ts ih =>
    intro hnd n hn
    simp only [List.map_cons, List.nodup_cons] at hnd
    rcases List.mem_cons.mp hn with rfl | hn
    · exact List.find?_cons_of_pos _ (by simp)
    · have hne : ¬ (h.slug = n.slug) := by
        intro hc
        exact hnd.1 (hc ▸ List.mem_map_of_mem (·.slug) hn)
      rw [List.find?_cons_of_neg _ (by simpa using hne)]
      exact ih hnd.2 hn

/-- Every node of a built tree is a raw page node with rearranged
children. -/
theorem build_node_core (w : World) (M : String) (m : ModuleDir)
    (hm : findModule w M = some m) {t : List PageNode}
    (ht : build_module_tree_uncached w M = .ok t) {n : PageNode} (hn : n ∈ t) :
    ∃ p ∈ getPages m, ∃ cs, n = { rawPageNode M p with children := cs } := by
  rw [build_ok w M m hm] at ht
  injection ht with ht
  subst ht
  unfold buildFinish at hn
  rcases List.mem_append.mp hn with h1 | h2
  · unfold buildStart at h1
    by_cases hord : (load_order m).pages.isEmpty
    · rw [if_pos hord] at h1
      simp at h1
    · rw [if_neg hord] at h1
      obtain ⟨n₀, hn₀, cs, rfl⟩ :=
        (orderLoop_mem (load_order m) (load_order m).pages _).1 n h1
      rcases mem_foldl_btree M (getPages m) [] n₀ hn₀ with h | ⟨p, hp, rfl⟩
      · simp at h
      · exact ⟨p, hp, cs, rfl⟩
  · obtain ⟨n₂, hn₂, rfl⟩ := List.mem_map.mp h2
    have hn₂' : n₂ ∈ (buildStart (load_order m) (buildMap M (getPages m))).2 :=
      stableSort_mem.mp hn₂
    have hmem : n₂ ∈ buildMap M (getPages m) := by
      unfold buildStart at hn₂'
      by_cases hord : (load_order m).pages.isEmpty
      · rw [if_pos hord] at hn₂'
        exact hn₂'
      · rw [if_neg hord] at hn₂'
        exact (orderLoop_mem (load_order m) (load_order m).pages _).2 n₂ hn₂'
    rcases mem_foldl_btree M (getPages m) [] n₂ hmem with h | ⟨p, hp, rfl⟩
    · simp at h
    · exact ⟨p, hp, stableSort ciLE (rawPageNode M p).children, rfl⟩

/-- C7 counterexample: with the module's tree cached, `update_page_meta`
persists `status = done` but the subsequent `get_module_tree` within the
TTL still shows `status = old`, so the claim's "a subsequent getTree
shows the node with the new field values" fails. -/
theorem C7_counterexample :
    c7Upd.1 = .ok "已更新頁面 meta" ∧
    (lookupPage c7Upd.2.1 "shop" "list").map (fun p => (read_page_meta p.pageJson).status) =
      some (some "done") ∧
    okNodeStatus (get_module_tree c7Upd.2.1 c7Upd.2.2 1 "shop").1 "list" =
      some (some "old") :=
  ⟨rfl, rfl, rfl⟩

/-- C7 (amended): `update_page_meta` overlays exactly the fields present
in the patch onto the stored record (its closed form is given field by
field: patched fields take the patch value, all others — `slug` and
`mermaid_id` included — are unchanged), leaves sibling pages and other
modules untouched and the cache untouched; and a subsequent
`get_module_tree` that does **not** hit a fresh cache entry (the cache is
not invalidated by the update) rebuilds and shows the node with exactly
the overlaid metadata. -/
theorem C7_amended (w : World) (c : SitemapCache) (M slug : String) (m : ModuleDir)
    (hm : findModule w M = some m)
    (p : PageDir) (hp : (getPages m).find? (fun q => q.slug = slug) = some p)
    (u : PageMetaUpdate) :
    (update_page_meta w c M slug u).1 = .ok "已更新頁面 meta" ∧
    lookupPage (update_page_meta w c M slug u).2.1 M slug =
      some { p with pageJson := some (overlayMeta (read_page_meta p.pageJson) u) } ∧
    (∀ cur v, overlayMeta cur v =
      { slug := cur.slug
        title := v.title.or cur.title
        path := v.path.or cur.path
        status := v.status.or cur.status
        route := v.route.or cur.route
        notes := v.notes.or cur.notes
        domain := v.domain.or cur.domain
        area := v.area.or cur.area
        component := v.component.or cur.component
        action := v.action.or cur.action
        «class» := v.«class».or cur.«class»
        mermaid_id := cur.mermaid_id
        links := v.links.or cur.links }) ∧
    (∀ s', s' ≠ slug →
      lookupPage (update_page_meta w c M slug u).2.1 M s' = lookupPage w M s') ∧
    (∀ N, N ≠ M → findModule (update_page_meta w c M slug u).2.1 N = findModule w N) ∧
    (update_page_meta w c M slug u).2.2 = c ∧
    (∀ (c' : SitemapCache) (now : Nat), cacheLookup c' M = none →
      ((getPages m).map (·.slug)).Nodup →
      ∃ t n, (get_module_tree (update_page_meta w c M slug u).2.1 c' now M).1 = .ok t ∧
        t.find? (fun q => q.slug = slug) = some n ∧
        stripChildren n = stripChildren (rawPageNode M
          { p with pageJson := some (overlayMeta (read_page_meta p.pageJson) u) })) := by
  have hmem : p ∈ getPages m := List.mem_of_find?_eq_some hp
  have hps : p.slug = slug := find?_slug hp
  have hname : m.name = M := findModule_name hm
  have hhas : hasPage m slug = true := by
    rw [hasPage, List.any_eq_true]
    exact ⟨p, hmem, by simp [hps]⟩
  have hex : pathExistsInPages m slug = true := by
    unfold pathExistsInPages
    cases hmp : m.pages with
    | none =>
      exfalso
      have : getPages m = [] := by rw [getPages, hmp]; rfl
      rw [this] at hp
      simp at hp
    | some ps' =>
      have : getPages m = ps' := by rw [getPages, hmp]; rfl
      rw [Bool.or_eq_true, List.any_eq_true]
      exact Or.inl ⟨p, this ▸ hmem, by simp [hps]⟩
  set g : ModuleDir → ModuleDir := fun mm =>
    { mm with pages := some ((getPages mm).map (fun q =>
        if q.slug = slug then
          { q with pageJson := some (overlayMeta (read_page_meta q.pageJson) u) }
        else q)) } with hgdef
  have hrun : update_page_meta w c M slug u =
      (.ok "已更新頁面 meta", updateModule w M g, c) := by
    unfold update_page_meta
    rw [hm]
    simp only [hex, Bool.not_true, hhas]
    rfl
  have hgname : ∀ mm, (g mm).name = mm.name := fun mm => rfl
  have hfindM : findModule (updateModule w M g) M = some (g m) := by
    rw [findModule_updateModule w M M g hgname, hm]
    simp [hname]
  have hupd_slug : ∀ q : PageDir,
      ((if q.slug = slug then
        ({ q with pageJson := some (overlayMeta (read_page_meta q.pageJson) u) } : PageDir)
      else q)).slug = q.slug := fun q => by
    by_cases h : q.slug = slug <;> simp [h]
  have hpg : ∀ mm, getPages (g mm) = (getPages mm).map (fun q =>
      if q.slug = slug then
        { q with pageJson := some (overlayMeta (read_page_meta q.pageJson) u) }
      else q) := fun mm => rfl
  refine ⟨by rw [hrun], ?_, overlayMeta_eq, ?_, ?_, by rw [hrun], ?_⟩
  · rw [hrun]
    show (findModule (updateModule w M g) M).bind
        (fun mm => (getPages mm).find? (fun q => q.slug = slug)) = _
    rw [hfindM]
    simp only [Option.some_bind]
    rw [hpg m, find?_pointUpdate (getPages m) slug
      (fun q => { q with pageJson := some (overlayMeta (read_page_meta q.pageJson) u) })
      (fun q => rfl) slug, hp]
    simp [hps]
  · intro s' hs'
    rw [hrun]
    show (findModule (updateModule w M g) M).bind
        (fun mm => (getPages mm).find? (fun q => q.slug = s')) =
      (findModule w M).bind (fun mm => (getPages mm).find? (fun q => q.slug = s'))
    rw [hfindM, hm]
    simp only [Option.some_bind]
    rw [hpg m, find?_pointUpdate (getPages m) slug
      (fun q => { q with pageJson := some (overlayMeta (read_page_meta q.pageJson) u) })
      (fun q => rfl) s']
    cases hq : (getPages m).find? (fun q => q.slug = s') with
    | none => rfl
    | some q =>
      have : q.slug = s' := find?_slug hq
      simp [this, hs']
  · intro N hN
    rw [hrun, findModule_updateModule w M N g hgname]
    cases hq : findModule w N with
    | none => rfl
    | some q =>
      have : q.name = N := findModule_name hq
      simp [this, hN]
  · intro c' now hc' hnd
    rw [hrun]
    set p' : PageDir := { p with pageJson := some (overlayMeta (read_page_meta p.pageJson) u) }
      with hpDefn
    have hnd' : ((getPages (g m)).map (·.slug)).Nodup := by
      rw [hpg m, List.map_map]
      have hco : ((fun q : PageDir => q.slug) ∘ (fun q =>
          if q.slug = slug then
            ({ q with pageJson := some (overlayMeta (read_page_meta q.pageJson) u) } : PageDir)
          else q)) = fun q : PageDir => q.slug := by
        funext q
        exact hupd_slug q
      rw [hco]
      exact hnd
    have hp'mem : p' ∈ getPages (g m) := by
      rw [hpg m]
      have h2 := List.mem_map_of_mem (fun q : PageDir =>
        if q.slug = slug then
          ({ q with pageJson := some (overlayMeta (read_page_meta q.pageJson) u) } : PageDir)
        else q) hmem
      simpa [hps, hpDefn] using h2
    obtain ⟨t, ht, hperm, htnd⟩ := C2_tree_slugs (updateModule w M g) M (g m)
      ((getPages m).map (fun q =>
        if q.slug = slug then
          { q with pageJson := some (overlayMeta (read_page_meta q.pageJson) u) }
        else q))
      hfindM rfl (hpg m ▸ hnd')
    have hget : (get_module_tree (updateModule w M g) c' now M).1 = .ok t := by
      rw [get_module_tree_miss _ _ _ _ hc', ht]
    have hslug_mem : slug ∈ slugsOf t := by
      rw [hperm.mem_iff]
      have h2 := List.mem_map_of_mem (fun q : PageDir => q.slug) hp'mem
      rw [hpg m] at h2
      simpa [hpDefn, hps] using h2
    obtain ⟨n, hn, hnslug⟩ := List.mem_map.mp hslug_mem
    have hfind : t.find? (fun q => q.slug = slug) = some n := by
      have h3 := find?_slug_of_mem_nodup htnd hn
      rwa [hnslug] at h3
    refine ⟨t, n, hget, hfind, ?_⟩
    obtain ⟨q, hq, cs, rfl⟩ := build_node_core (updateModule w M g) M (g m) hfindM ht hn
    have hqslug : q.slug = slug := hnslug
    have hq_eq : q = p' := by
      have hinj := List.inj_on_of_nodup_map hnd'
      exact hinj hq hp'mem (by rw [hqslug, hpDefn]; simp [hps])
    rw [hq_eq]
    rfl

/-- C7 amended witness: the concrete patch on `wC7` — update succeeds,
the store holds the overlay, and a cache-missing read shows the node with
`status = done` and everything else as before. -/
theorem C7_amended_witness :
    (update_page_meta wC7 SitemapCache.new "shop" "list" patchC7).1 = .ok "已更新頁面 meta" ∧
    ∃ t n, (get_module_tree (update_page_meta wC7 SitemapCache.new "shop" "list" patchC7).2.1
        SitemapCache.new 0 "shop").1 = .ok t ∧
      t.find? (fun q => q.slug = "list") = some n ∧
      stripChildren n = stripChildren (rawPageNode "shop"
        { slug := "list"
          pageJson := some (overlayMeta
            (read_page_meta (some { PageMeta.default with status := some "old" })) patchC7)
          metaJson := .absent, subpages := none
          screenshots := [], html := [], css := [] }) := by
  have h := C7_amended wC7 SitemapCache.new "shop" "list" _ rfl _ rfl patchC7
  exact ⟨h.1, h.2.2.2.2.2.2 SitemapCache.new 0 rfl (by decide)⟩

/-! ## Analytics aggregation -/

/-- The subpage loop never touches the page counter or the orphan
list. -/
theorem processSubpage_frame (acc : AnalyticsAcc) (sp : SubpageDir) :
    (processSubpage acc sp).total_pages = acc.total_pages ∧
    (processSubpage acc sp).orphaned_pages = acc.orphaned_pages := by
  unfold processSubpage
  dsimp only
  split_ifs <;> cases hsp : sp.metaJson <;> exact ⟨rfl, rfl⟩

/-- Folded version of `processSubpage_frame`. -/
theorem foldl_processSubpage_frame :
    ∀ (sps : List SubpageDir) (acc : AnalyticsAcc),
      (sps.foldl processSubpage acc).total_pages = acc.total_pages ∧
      (sps.foldl processSubpage acc).orphaned_pages = acc.orphaned_pages
  | [], _ => ⟨rfl, rfl⟩
  | sp :: sps, acc => by
    simp only [List.foldl_cons]
    have h := processSubpage_frame acc sp
    have ih := foldl_processSubpage_frame sps (processSubpage acc sp)
    exact ⟨ih.1.trans h.1, ih.2.trans h.2⟩

/-- The page loop body counts the page and pushes exactly the
`orphanEntry` classification of its `meta.json`. -/
theorem processPage_spec (mn : String) (acc : AnalyticsAcc) (p : PageDir) :
    (processPage mn acc p).total_pages = acc.total_pages + 1 ∧
    (processPage mn acc p).orphaned_pages =
      acc.orphaned_pages ++ (orphanEntry mn p.slug p.metaJson).toList := by
  unfold processPage orphanEntry
  dsimp only
  cases hmj : p.metaJson with
  | absent =>
    split_ifs <;>
      exact ⟨((foldl_processSubpage_frame _ _).1).trans rfl,
             ((foldl_processSubpage_frame _ _).2).trans rfl⟩
  | unreadable =>
    split_ifs <;>
      exact ⟨((foldl_processSubpage_frame _ _).1).trans rfl,
             ((foldl_processSubpage_frame _ _).2).trans rfl⟩
  | invalid =>
    split_ifs <;>
      exact ⟨((foldl_processSubpage_frame _ _).1).trans rfl,
             ((foldl_processSubpage_frame _ _).2).trans rfl⟩
  | parsed st hr ht =>
    by_cases horp : ¬ hr = true ∨ ¬ ht = true
    · simp only [if_pos horp]
      split_ifs <;>
        exact ⟨((foldl_processSubpage_frame _ _).1).trans rfl,
               ((foldl_processSubpage_frame _ _).2).trans rfl⟩
    · simp only [if_neg horp]
      split_ifs <;>
        exact ⟨((foldl_processSubpage_frame _ _).1).trans rfl,
               ((foldl_processSubpage_frame _ _).2).trans (by simp)⟩

/-- Folded version of `processPage_spec`. -/
theorem foldl_processPage_spec (mn : String) :
    ∀ (ps : List PageDir) (acc : AnalyticsAcc),
      (ps.foldl (processPage mn) acc).total_pages = acc.total_pages + ps.length ∧
      (ps.foldl (processPage mn) acc).orphaned_pages =
        acc.orphaned_pages ++ ps.filterMap (fun p => orphanEntry mn p.slug p.metaJson)
  | [], acc => by simp
  | p :: ps, acc => by
    simp only [List.foldl_cons, List.length_cons, List.filterMap_cons]
    have hp := processPage_spec mn acc p
    have ih := foldl_processPage_spec mn ps (processPage mn acc p)
    constructor
    · rw [ih.1, hp.1]
      omega
    · rw [ih.2, hp.2]
      cases horp : orphanEntry mn p.slug p.metaJson <;> simp [List.append_assoc]

/-- The module loop body adds the module's page count and orphan
entries. -/
theorem processModule_spec (acc : AnalyticsAcc) (m : ModuleDir) :
    (processModule acc m).total_pages = acc.total_pages + (getPages m).length ∧
    (processModule acc m).orphaned_pages =
      acc.orphaned_pages ++
        (getPages m).filterMap (fun p => orphanEntry m.name p.slug p.metaJson) := by
  unfold processModule
  dsimp only
  have hf := foldl_processPage_spec m.name (getPages m)
    { acc with total_modules := acc.total_modules + 1 }
  split_ifs <;> exact ⟨hf.1, hf.2⟩

/-- Folded version of `processModule_spec`. -/
theorem foldl_processModule_spec :
    ∀ (ms : List ModuleDir) (acc : AnalyticsAcc),
      (ms.foldl processModule acc).total_pages =
        acc.total_pages + (ms.map (fun m => (getPages m).length)).sum ∧
      (ms.foldl processModule acc).orphaned_pages =
        acc.orphaned_pages ++ ms.flatMap (fun m =>
          (getPages m).filterMap (fun p => orphanEntry m.name p.slug p.metaJson))
  | [], acc => by simp
  | m :: ms, acc => by
    simp only [List.foldl_cons, List.map_cons, List.sum_cons, List.flatMap_cons]
    have hm := processModule_spec acc m
    have ih := foldl_processModule_spec ms (processModule acc m)
    constructor
    · rw [ih.1, hm.1]
      omega
    · rw [ih.2, hm.2]
      simp [List.append_assoc]

/-- C8 counterexample: a page whose `page.json` sidecar is complete
(`route` and `title` present) is still reported orphaned `(no meta)`,
because the aggregator reads `meta.json`, not the `page.json` of the
persisted layout. -/
theorem C8_counterexample :
    (build_sitemap_analytics_uncached wC8).orphaned_pages = ["shop/p1 (no meta)"] ∧
    (∀ m ∈ wC8.modules, ∀ p ∈ getPages m,
      (read_page_meta p.pageJson).route ≠ none ∧ (read_page_meta p.pageJson).title ≠ none) :=
  ⟨rfl, by decide⟩

/-- C8 (amended): `analyze` counts every page directory in
`total_pages`, and reports a page orphaned exactly per the `meta.json`
sidecar (the export/import sidecar — not `page.json`): missing,
unreadable, unparsable, or parsed without a `route` or `title` key; a
broken sidecar yields an orphan entry rather than aborting the
aggregation.  In particular, on the two-page module where exactly one
`meta.json` lacks `route`, `orphaned_pages` names only that page and
`total_pages = 2`. -/
theorem C8_amended :
    (∀ w : World,
      (build_sitemap_analytics_uncached w).total_pages =
        (w.modules.map (fun m => (getPages m).length)).sum ∧
      (build_sitemap_analytics_uncached w).orphaned_pages =
        w.modules.flatMap (fun m =>
          (getPages m).filterMap (fun p => orphanEntry m.name p.slug p.metaJson))) ∧
    (build_sitemap_analytics_uncached wC8w).total_pages = 2 ∧
    (build_sitemap_analytics_uncached wC8w).orphaned_pages = ["shop/bad"] := by
  refine ⟨fun w => ?_, rfl, rfl⟩
  have h := foldl_processModule_spec w.modules AnalyticsAcc.init
  unfold build_sitemap_analytics_uncached
  exact ⟨by simpa [AnalyticsAcc.init] using h.1, by simpa [AnalyticsAcc.init] using h.2⟩

/-! ## The byte-wise string order is a strict linear order -/

/-- `charListLt` is irreflexive. -/
theorem charListLt_irrefl : ∀ l : List Char, charListLt l l = false
  | [] => rfl
  | c :: l => by
    rw [charListLt]
    simp [lt_irrefl, charListLt_irrefl l]

/-- `charListLt` is transitive. -/
theorem charListLt_trans :
    ∀ {a b c : List Char}, charListLt a b = true → charListLt b c = true →
      charListLt a c = true
  | [], _ :: _, _ :: _, _, _ => rfl
  | x :: a, y :: b, z :: c, h1, h2 => by
    rw [charListLt] at h1 h2 ⊢
    by_cases hxy : x < y
    · by_cases hyz : y < z
      · simp [lt_trans hxy hyz]
      · by_cases hzy : z < y
        · simp [if_neg hyz, if_pos hzy] at h2
        · have : y = z := le_antisymm (not_lt.mp hzy) (not_lt.mp hyz)
          subst this
          simp [hxy]
    · by_cases hyx : y < x
      · simp [if_neg hxy, if_pos hyx] at h1
      · have hxy' : x = y := le_antisymm (not_lt.mp hyx) (not_lt.mp hxy)
        subst hxy'
        rw [if_neg hxy, if_neg (lt_irrefl x)] at h1
        by_cases hyz : x < z
        · simp [hyz]
        · by_cases hzy : z < x
          · simp [if_neg hyz, if_pos hzy] at h2
          · rw [if_neg hyz, if_neg hzy] at h2 ⊢
            exact charListLt_trans h1 h2

/-- Distinct character lists are comparable. -/
theorem charListLt_connex :
    ∀ {a b : List Char}, a ≠ b → charListLt a b = true ∨ charListLt b a = true
  | [], [], h => absurd rfl h
  | [], _ :: _, _ => Or.inl rfl
  | _ :: _, [], _ => Or.inr rfl
  | x :: a, y :: b, h => by
    rw [charListLt, charListLt]
    by_cases hxy : x < y
    · exact Or.inl (by simp [hxy])
    · by_cases hyx : y < x
      · exact Or.inr (by simp [hyx, if_neg (asymm hyx)])
      · have : x = y := le_antisymm (not_lt.mp hyx) (not_lt.mp hxy)
        subst this
        have hab : a ≠ b := fun hc => h (by rw [hc])
        rcases charListLt_connex hab with h' | h'
        · exact Or.inl (by simp [lt_irrefl, h'])
        · exact Or.inr (by simp [lt_irrefl, h'])

/-- `charListLt` is asymmetric. -/
theorem charListLt_asymm {a b : List Char} (h : charListLt a b = true) :
    charListLt b a = false := by
  by_contra hc
  rw [Bool.not_eq_false] at hc
  have := charListLt_trans h hc
  rw [charListLt_irrefl] at this
  exact Bool.false_ne_true this

/-! ## Sortedness of the stable sort -/

/-- `orderedInsert` below a fully-ordered suffix. -/
theorem orderedInsert_all_le {α : Type} (le : α → α → Bool) (c : α) :
    ∀ (B : List α), (∀ y ∈ B, le c y = true) → orderedInsert le c B = c :: B
  | [], _ => rfl
  | y :: B, hB => by
    rw [orderedInsert, if_pos (hB y (List.mem_cons_self y B))]

/-- `orderedInsert` into an append whose right part is all above `c`. -/
theorem orderedInsert_append_right {α : Type} (le : α → α → Bool) (c : α) :
    ∀ (A B : List α), (∀ y ∈ B, le c y = true) →
      orderedInsert le c (A ++ B) = orderedInsert le c A ++ B
  | [], B, hB => by
    simp only [List.nil_append]
    rw [orderedInsert_all_le le c B hB]
    rfl
  | a :: A, B, hB => by
    simp only [List.cons_append, orderedInsert, List.append_eq]
    by_cases h : le c a
    · rw [if_pos h, if_pos h]
      rfl
    · rw [if_neg h, if_neg h, orderedInsert_append_right le c A B hB]
      rfl

/-- `orderedInsert` walks past a prefix that is all strictly below `c`. -/
theorem orderedInsert_skip {α : Type} (le : α → α → Bool) (c : α) :
    ∀ (A B : List α), (∀ y ∈ A, le c y = false) →
      orderedInsert le c (A ++ B) = A ++ orderedInsert le c B
  | [], _, _ => rfl
  | a :: A, B, hA => by
    simp only [List.cons_append, orderedInsert, List.append_eq]
    rw [if_neg (by rw [hA a (List.mem_cons_self a A)]; simp),
      orderedInsert_skip le c A B (fun y hy => hA y (List.mem_cons.mpr (Or.inr hy)))]

/-- `orderedInsert` preserves sortedness for a total, transitive
comparator. -/
theorem pairwise_orderedInsert {α : Type} (le : α → α → Bool)
    (htot : ∀ a b, le a b = true ∨ le b a = true)
    (htrans : ∀ a b c, le a b = true → le b c = true → le a c = true) (c : α) :
    ∀ {l : List α}, l.Pairwise (fun a b => le a b = true) →
      (orderedInsert le c l).Pairwise (fun a b => le a b = true) := by
  intro l
  induction l with
  | nil => intro _; simp [orderedInsert]
  | cons b l ih =>
    intro hl
    rw [orderedInsert]
    rcases List.pairwise_cons.mp hl with ⟨hb, hl'⟩
    by_cases h : le c b = true
    · rw [if_pos h]
      refine List.pairwise_cons.mpr ⟨?_, hl⟩
      intro y hy
      rcases List.mem_cons.mp hy with rfl | hy
      · exact h
      · exact htrans c b y h (hb y hy)
    · rw [if_neg h]
      refine List.pairwise_cons.mpr ⟨?_, ih hl'⟩
      intro y hy
      have hy' := (orderedInsert_perm le c l).mem_iff.mp hy
      rcases List.mem_cons.mp hy' with rfl | hy'
      · rcases htot b y with h' | h'
        · exact h'
        · exact absurd h' h
      · exact hb y hy'

/-- The stable sort is sorted for a total, transitive comparator. -/
theorem pairwise_stableSort {α : Type} (le : α → α → Bool)
    (htot : ∀ a b, le a b = true ∨ le b a = true)
    (htrans : ∀ a b c, le a b = true → le b c = true → le a c = true) :
    ∀ l : List α, (stableSort le l).Pairwise (fun a b => le a b = true)
  | [] => List.Pairwise.nil
  | a :: l => pairwise_orderedInsert le htot htrans a (pairwise_stableSort le htot htrans l)

/-! ## The stable sort by subo position splits into listed and unlisted -/

/-- Stable sorting by a `Nat` key with a designated top value splits into
the below-top part (sorted) followed by the top part in input order. -/
theorem stableSort_key_split {α : Type} (f : α → Nat) (TOP : Nat)
    (hb : ∀ a, f a ≤ TOP) :
    ∀ l : List α,
      stableSort (fun a b => decide (f a ≤ f b)) l =
        stableSort (fun a b => decide (f a ≤ f b))
            (l.filter (fun a => !decide (f a = TOP))) ++
          l.filter (fun a => decide (f a = TOP))
  | [] => rfl
  | c :: l => by
    have ih := stableSort_key_split f TOP hb l
    by_cases hc : f c = TOP
    · have h1 : (!decide (f c = TOP)) = false := by simp [hc]
      have h2 : decide (f c = TOP) = true := by simp [hc]
      show orderedInsert _ c (stableSort _ l) = _
      rw [ih, List.filter_cons, List.filter_cons, h1, h2,
        if_neg (by simp), if_pos rfl]
      have hA : ∀ y ∈ stableSort (fun a b => decide (f a ≤ f b))
          (l.filter (fun a => !decide (f a = TOP))),
          (fun a b => decide (f a ≤ f b)) c y = false := by
        intro y hy
        have hy2 := (List.mem_filter.mp (stableSort_mem.mp hy)).2
        simp only [Bool.not_eq_true', decide_eq_false_iff_not] at hy2
        have hlt : f y < TOP := lt_of_le_of_ne (hb y) hy2
        simp only [decide_eq_false_iff_not, not_le, hc]
        exact hlt
      have hB : ∀ y ∈ l.filter (fun a => decide (f a = TOP)),
          (fun a b => decide (f a ≤ f b)) c y = true := by
        intro y hy
        have hy2 := (List.mem_filter.mp hy).2
        simp only [decide_eq_true_eq] at hy2
        simp [hc, hy2]
      rw [orderedInsert_skip _ _ _ _ hA, orderedInsert_all_le _ _ _ hB]
    · have h1 : (!decide (f c = TOP)) = true := by simp [hc]
      have h2 : decide (f c = TOP) = false := by simp [hc]
      show orderedInsert _ c (stableSort _ l) = _
      rw [ih, List.filter_cons, List.filter_cons, h1, h2,
        if_pos rfl, if_neg (by simp)]
      have hB : ∀ y ∈ l.filter (fun a => decide (f a = TOP)),
          (fun a b => decide (f a ≤ f b)) c y = true := by
        intro y hy
        have hy2 := (List.mem_filter.mp hy).2
        simp only [decide_eq_true_eq] at hy2
        have := hb c
        simp only [decide_eq_true_eq, hy2]
        omega
      rw [orderedInsert_append_right _ _ _ _ hB]
      rfl

/-! ## Uniqueness of sorted permutations -/

/-- Two sorted lists that are permutations of each other coincide when the
comparator is antisymmetric on the first list's members. -/
theorem sorted_perm_eq {α : Type} (le : α → α → Bool) :
    ∀ {l₁ l₂ : List α}, l₁.Perm l₂ →
      l₁.Pairwise (fun a b => le a b = true) →
      l₂.Pairwise (fun a b => le a b = true) →
      (∀ a ∈ l₁, ∀ b ∈ l₁, le a b = true → le b a = true → a = b) →
      l₁ = l₂ := by
  intro l₁
  induction l₁ with
  | nil =>
    intro l₂ hp _ _ _
    exact (hp.symm.eq_nil).symm
  | cons a t ih =>
    intro l₂ hp hs₁ hs₂ hanti
    cases l₂ with
    | nil =>
      have := hp.eq_nil
      simp at this
    | cons b t₂ =>
      have hbmem : b ∈ a :: t := hp.mem_iff.mpr (List.mem_cons_self b t₂)
      have hamem : a ∈ b :: t₂ := hp.mem_iff.mp (List.mem_cons_self a t)
      have hab : a = b := by
        rcases List.mem_cons.mp hamem with heq | hat
        · exact heq
        · rcases List.mem_cons.mp hbmem with heq | hbt
          · exact heq.symm
          · exact hanti a (List.mem_cons_self a t) b hbmem
              ((List.pairwise_cons.mp hs₁).1 b hbt)
              ((List.pairwise_cons.mp hs₂).1 a hat)
      subst hab
      have hp' : t.Perm t₂ := hp.cons_inv
      rw [ih hp' (List.pairwise_cons.mp hs₁).2 (List.pairwise_cons.mp hs₂).2
        (fun x hx y hy => hanti x (List.mem_cons.mpr (Or.inr hx)) y
          (List.mem_cons.mpr (Or.inr hy)))]

/-! ## `eraseP` commutation helpers -/

/-- `find?` is unaffected by erasing elements that cannot satisfy it. -/
theorem find?_eraseP_disjoint {α : Type} (p q : α → Bool) :
    ∀ (l : List α), (∀ a ∈ l, ¬(q a = true ∧ p a = true)) →
      (l.eraseP q).find? p = l.find? p
  | [], _ => rfl
  | a :: l, h => by
    by_cases hq : q a = true
    · rw [List.eraseP_cons_of_pos hq]
      have hpa : ¬ p a = true := fun hp => h a (List.mem_cons_self a l) ⟨hq, hp⟩
      rw [List.find?_cons_of_neg _ hpa]
    · rw [List.eraseP_cons_of_neg (by simpa using hq)]
      by_cases hp : p a = true
      · rw [List.find?_cons_of_pos _ hp, List.find?_cons_of_pos _ hp]
      · rw [List.find?_cons_of_neg _ hp, List.find?_cons_of_neg _ hp]
        exact find?_eraseP_disjoint p q l (fun x hx => h x (List.mem_cons.mpr (Or.inr hx)))

/-- `filter` is unaffected by erasing an element the filter drops
anyway. -/
theorem filter_eraseP_of_imp {α : Type} (p q : α → Bool) :
    ∀ (l : List α), (∀ a ∈ l, q a = true → p a = false) →
      (l.eraseP q).filter p = l.filter p
  | [], _ => rfl
  | a :: l, h => by
    by_cases hq : q a = true
    · rw [List.eraseP_cons_of_pos hq, List.filter_cons,
        if_neg (by simp [h a (List.mem_cons_self a l) hq])]
    · rw [List.eraseP_cons_of_neg (by simpa using hq), List.filter_cons, List.filter_cons,
        filter_eraseP_of_imp p q l (fun x hx hqx => h x (List.mem_cons.mpr (Or.inr hx)) hqx)]

/-! ## The byte order as a total preorder -/

/-- Totality of the non-strict byte comparison. -/
theorem charListLe_total (a b : List Char) :
    charListLe a b = true ∨ charListLe b a = true := by
  unfold charListLe
  by_cases h : charListLt b a = true
  · right
    rw [charListLt_asymm h]
    rfl
  · left
    rw [Bool.not_eq_true] at h
    rw [h]
    rfl

/-- Transitivity of the non-strict byte comparison. -/
theorem charListLe_trans {a b c : List Char}
    (h1 : charListLe a b = true) (h2 : charListLe b c = true) :
    charListLe a c = true := by
  unfold charListLe at h1 h2 ⊢
  rw [Bool.not_eq_true'] at h1 h2 ⊢
  by_contra hcon
  rw [Bool.not_eq_false] at hcon
  by_cases hbc : b = c
  · subst hbc
    rw [h1] at hcon
    exact Bool.false_ne_true hcon
  · rcases charListLt_connex hbc with h | h
    · have := charListLt_trans h hcon
      rw [h1] at this
      exact Bool.false_ne_true this
    · rw [h2] at h
      exact Bool.false_ne_true h

/-- Mutual non-strict byte comparison forces equality. -/
theorem charListLe_antisymm_data {a b : List Char}
    (h1 : charListLe a b = true) (h2 : charListLe b a = true) : a = b := by
  unfold charListLe at h1 h2
  rw [Bool.not_eq_true'] at h1 h2
  by_contra hne
  rcases charListLt_connex hne with h | h
  · rw [h2] at h
    exact Bool.false_ne_true h
  · rw [h1] at h
    exact Bool.false_ne_true h

/-- Strings with equal character data are equal. -/
theorem string_eq_of_data : ∀ {s t : String}, s.data = t.data → s = t := by
  intro s t h
  cases s
  cases t
  exact congrArg String.mk h

/-! ## The position key of `sort_by_key` -/

/-- In a duplicate-free list the index found for the `i`-th element is
`i` itself. -/
theorem findIdx?_self_of_nodup {l : List String} (hnd : l.Nodup) {i : Nat}
    (hi : i < l.length) :
    l.findIdx? (fun s => s = l.get ⟨i, hi⟩) = some i := by
  rw [List.findIdx?_eq_some_iff_getElem]
  refine ⟨hi, by simp, ?_⟩
  intro j hji
  have hne := List.pairwise_iff_getElem.mp hnd j i (Nat.lt_trans hji hi) hi hji
  simpa [List.get_eq_getElem] using hne

/-- A key is the top value exactly on slugs missing from the list. -/
theorem suboKey_eq_top_iff {subo : List String} (hlen : subo.length ≤ USIZE_MAX)
    (c : PageNode) : suboKey subo c = USIZE_MAX ↔ c.slug ∉ subo := by
  unfold suboKey
  constructor
  · intro h hmem
    cases hf : subo.findIdx? (fun s => s = c.slug) with
    | none =>
      rw [List.findIdx?_eq_none_iff] at hf
      have := hf c.slug hmem
      simp at this
    | some i =>
      rw [hf] at h
      simp only [Option.getD_some] at h
      obtain ⟨hi, -, -⟩ := List.findIdx?_eq_some_iff_getElem.mp hf
      omega
  · intro hmem
    have hf : subo.findIdx? (fun s => s = c.slug) = none := by
      rw [List.findIdx?_eq_none_iff]
      intro x hx
      simp only [decide_eq_false_iff_not]
      intro hc
      exact hmem (hc ▸ hx)
    rw [hf]
    rfl

/-- The key of the `i`-th listed slug is `i`. -/
theorem suboKey_of_getElem {subo : List String} (hnd : subo.Nodup) {i : Nat}
    (hi : i < subo.length) {c : PageNode} (hcs : c.slug = subo.get ⟨i, hi⟩) :
    suboKey subo c = i := by
  unfold suboKey
  have hpred : (fun s => decide (s = c.slug)) = (fun s => decide (s = subo.get ⟨i, hi⟩)) := by
    funext s
    rw [hcs]
  rw [hpred, findIdx?_self_of_nodup hnd hi]
  rfl

/-- Keys of listed slugs are below the top value. -/
theorem suboKey_lt_of_mem {subo : List String} (hlen : subo.length ≤ USIZE_MAX)
    {c : PageNode} (hc : c.slug ∈ subo) : suboKey subo c < USIZE_MAX := by
  unfold suboKey
  cases hf : subo.findIdx? (fun s => s = c.slug) with
  | none =>
    rw [List.findIdx?_eq_none_iff] at hf
    have := hf c.slug hc
    simp at this
  | some i =>
    obtain ⟨hi, -, -⟩ := List.findIdx?_eq_some_iff_getElem.mp hf
    simp only [Option.getD_some]
    omega

/-- Keys never exceed the top value. -/
theorem suboKey_le_top {subo : List String} (hlen : subo.length ≤ USIZE_MAX)
    (c : PageNode) : suboKey subo c ≤ USIZE_MAX := by
  by_cases h : c.slug ∈ subo
  · exact Nat.le_of_lt (suboKey_lt_of_mem hlen h)
  · exact Nat.le_of_eq ((suboKey_eq_top_iff hlen c).mpr h)

/-- Equal keys of two listed slugs force equal slugs. -/
theorem suboKey_inj {subo : List String} {a b : PageNode}
    (ha : a.slug ∈ subo) (hb : b.slug ∈ subo)
    (hk : suboKey subo a = suboKey subo b) : a.slug = b.slug := by
  unfold suboKey at hk
  cases hfa : subo.findIdx? (fun s => s = a.slug) with
  | none =>
    rw [List.findIdx?_eq_none_iff] at hfa
    have := hfa a.slug ha
    simp at this
  | some i =>
    cases hfb : subo.findIdx? (fun s => s = b.slug) with
    | none =>
      rw [List.findIdx?_eq_none_iff] at hfb
      have := hfb b.slug hb
      simp at this
    | some j =>
      rw [hfa, hfb] at hk
      simp only [Option.getD_some] at hk
      subst hk
      obtain ⟨hi, hpa, -⟩ := List.findIdx?_eq_some_iff_getElem.mp hfa
      obtain ⟨hj, hpb, -⟩ := List.findIdx?_eq_some_iff_getElem.mp hfb
      simp only [decide_eq_true_eq] at hpa hpb
      rw [← hpa, ← hpb]

/-! ## The per-parent child sort, characterised -/

/-- Sorting children by a per-parent order list: listed children come
first in the list's order, unlisted children follow in input order. -/
theorem sort_subo_eq (subo : List String) (cs : List PageNode)
    (hndc : (cs.map (·.slug)).Nodup) (hnds : subo.Nodup)
    (hlen : subo.length ≤ USIZE_MAX) :
    stableSort (suboLE subo) cs =
      subo.filterMap (fun s => cs.find? (fun c => c.slug = s)) ++
        cs.filter (fun c => ! subo.contains c.slug) := by
  have hle : suboLE subo = fun a b => decide (suboKey subo a ≤ suboKey subo b) := rfl
  rw [hle, stableSort_key_split (suboKey subo) USIZE_MAX (suboKey_le_top hlen) cs]
  have hfeq : cs.filter (fun c => decide (suboKey subo c = USIZE_MAX)) =
      cs.filter (fun c => ! subo.contains c.slug) := by
    apply List.filter_congr
    intro c _
    by_cases h : c.slug ∈ subo
    · have h1 : ¬ suboKey subo c = USIZE_MAX := by
        have := suboKey_lt_of_mem hlen h
        omega
      simp [h1, h]
    · have h1 := (suboKey_eq_top_iff hlen c).mpr h
      simp [h1, h]
  rw [hfeq]
  congr 1
  have hmemL : ∀ c ∈ cs.filter (fun c => ! decide (suboKey subo c = USIZE_MAX)),
      c ∈ cs ∧ c.slug ∈ subo := by
    intro c hc
    have h1 := List.mem_filter.mp hc
    refine ⟨h1.1, ?_⟩
    by_contra hmem
    have := (suboKey_eq_top_iff hlen c).mpr hmem
    simp [this] at h1
  have hcsnd : cs.Nodup := hndc.of_map (·.slug)
  refine sorted_perm_eq (fun a b => decide (suboKey subo a ≤ suboKey subo b)) ?_ ?_ ?_ ?_
  · refine (stableSort_perm _ _).trans ?_
    have hnd₂ : (subo.filterMap (fun s => cs.find? (fun c => c.slug = s))).Nodup := by
      refine List.Nodup.filterMap ?_ hnds
      intro s s' n hn hn'
      have h1 := List.find?_some (Option.mem_def.mp hn)
      have h2 := List.find?_some (Option.mem_def.mp hn')
      simp only [decide_eq_true_eq] at h1 h2
      rw [← h1, ← h2]
    rw [List.perm_ext_iff_of_nodup (hcsnd.filter _) hnd₂]
    intro n
    constructor
    · intro hn
      obtain ⟨hncs, hslug⟩ := hmemL n hn
      exact List.mem_filterMap.mpr ⟨n.slug, hslug, find?_slug_of_mem_nodup hndc hncs⟩
    · intro hn
      obtain ⟨s, hs, hfind⟩ := List.mem_filterMap.mp hn
      have hncs : n ∈ cs := List.mem_of_find?_eq_some hfind
      have hnsl : n.slug = s := by
        have := List.find?_some hfind
        simpa using this
      refine List.mem_filter.mpr ⟨hncs, ?_⟩
      have hnmem : n.slug ∈ subo := by
        rw [hnsl]
        exact hs
      have h1 : ¬ suboKey subo n = USIZE_MAX := by
        have := suboKey_lt_of_mem hlen hnmem
        omega
      simp [h1]
  · refine pairwise_stableSort _ (fun a b => ?_) (fun a b c h1 h2 => ?_) _
    · rcases Nat.le_total (suboKey subo a) (suboKey subo b) with h | h
      · exact Or.inl (by simp [h])
      · exact Or.inr (by simp [h])
    · simp only [decide_eq_true_eq] at h1 h2 ⊢
      omega
  · rw [List.pairwise_filterMap, List.pairwise_iff_getElem]
    intro i j hi hj hij
    intro n hn n' hn'
    have h1 := List.find?_some (Option.mem_def.mp hn)
    have h2 := List.find?_some (Option.mem_def.mp hn')
    simp only [decide_eq_true_eq] at h1 h2
    have k1 := suboKey_of_getElem hnds hi (by simpa [List.get_eq_getElem] using h1)
    have k2 := suboKey_of_getElem hnds hj (by simpa [List.get_eq_getElem] using h2)
    simp only [decide_eq_true_eq]
    omega
  · intro a ha b hb h1 h2
    obtain ⟨hacs, haslug⟩ := hmemL a (stableSort_mem.mp ha)
    obtain ⟨hbcs, hbslug⟩ := hmemL b (stableSort_mem.mp hb)
    simp only [decide_eq_true_eq] at h1 h2
    exact List.inj_on_of_nodup_map hndc hacs hbcs
      (suboKey_inj haslug hbslug (Nat.le_antisymm h1 h2))

/-- Child sorting coincides with the amended claim's description for a
page whose children have unique slugs. -/
theorem sortChildrenFor_eq (o : OrderFile) (s : String) (cs : List PageNode)
    (hndc : (cs.map (·.slug)).Nodup)
    (hnds : ∀ kv ∈ o.subpages, kv.2.Nodup ∧ kv.2.length ≤ USIZE_MAX) :
    sortChildrenFor o s cs = c4AmendedChildren o s cs := by
  cases hg : o.getSub s with
  | none =>
    unfold sortChildrenFor c4AmendedChildren
    rw [hg]
    rfl
  | some subo =>
    obtain ⟨kv, hkv, hkv2⟩ : ∃ kv ∈ o.subpages, kv.2 = subo := by
      unfold OrderFile.getSub at hg
      cases hfind : o.subpages.find? (fun e => e.1 = s) with
      | none =>
        rw [hfind] at hg
        simp at hg
      | some kv =>
        rw [hfind] at hg
        simp only [Option.map_some'] at hg
        injection hg with hg
        exact ⟨kv, List.mem_of_find?_eq_some hfind, hg⟩
    obtain ⟨h1, h2⟩ := hnds kv hkv
    unfold sortChildrenFor c4AmendedChildren
    rw [hg]
    exact sort_subo_eq subo cs hndc (hkv2 ▸ h1) (hkv2 ▸ h2)

/-! ## The built map as the byte-sorted raw nodes -/

/-- The inserted node is in the result. -/
theorem self_mem_btreeInsert (l : List PageNode) (x : PageNode) :
    x ∈ btreeInsert l x := by
  induction l with
  | nil => simp [btreeInsert]
  | cons y ys ih =>
    rw [btreeInsert]
    by_cases h1 : charListLt x.slug.data y.slug.data
    · rw [if_pos h1]
      exact List.mem_cons_self x _
    · rw [if_neg h1]
      by_cases h2 : x.slug = y.slug
      · rw [if_pos h2]
        exact List.mem_cons_self x _
      · rw [if_neg h2]
        exact List.mem_cons.mpr (Or.inr ih)

/-- `btreeInsert` keeps elements with a different key. -/
theorem mem_btreeInsert_of_mem {l : List PageNode} {n x : PageNode}
    (hn : n ∈ l) (hne : ¬ x.slug = n.slug) : n ∈ btreeInsert l x := by
  induction l with
  | nil => simp at hn
  | cons y ys ih =>
    rw [btreeInsert]
    by_cases h1 : charListLt x.slug.data y.slug.data
    · rw [if_pos h1]
      exact List.mem_cons.mpr (Or.inr hn)
    · rw [if_neg h1]
      by_cases h2 : x.slug = y.slug
      · rw [if_pos h2]
        rcases List.mem_cons.mp hn with rfl | hn'
        · exact absurd h2 hne
        · exact List.mem_cons.mpr (Or.inr hn')
      · rw [if_neg h2]
        rcases List.mem_cons.mp hn with rfl | hn'
        · exact List.mem_cons_self n _
        · exact List.mem_cons.mpr (Or.inr (ih hn'))

/-- The fold keeps elements whose key none of the pages carries. -/
theorem mem_foldl_btree_of_mem (M : String) :
    ∀ (ps : List PageDir) (acc : List PageNode) (n : PageNode), n ∈ acc →
      (∀ p ∈ ps, ¬ p.slug = n.slug) →
      n ∈ ps.foldl (fun a p => btreeInsert a (rawPageNode M p)) acc
  | [], _, _, hn, _ => hn
  | p :: ps, acc, n, hn, hne => by
    simp only [List.foldl_cons]
    refine mem_foldl_btree_of_mem M ps _ n ?_
      (fun q hq => hne q (List.mem_cons.mpr (Or.inr hq)))
    exact mem_btreeInsert_of_mem hn (hne p (List.mem_cons_self p ps))

/-- Every raw page node lands in the built map when slugs are unique. -/
theorem raw_mem_buildMap (M : String) :
    ∀ (ps : List PageDir) (acc : List PageNode),
      (ps.map (·.slug)).Nodup →
      ∀ p ∈ ps, rawPageNode M p ∈ ps.foldl (fun a q => btreeInsert a (rawPageNode M q)) acc
  | [], _, _, p, hp => by simp at hp
  | q :: ps, acc, hnd, p, hp => by
    simp only [List.map_cons, List.nodup_cons] at hnd
    simp only [List.foldl_cons]
    rcases List.mem_cons.mp hp with rfl | hp'
    · refine mem_foldl_btree_of_mem M ps _ _ (self_mem_btreeInsert acc _) ?_
      intro r hr hc
      have hc' : r.slug = p.slug := hc
      exact hnd.1 (hc' ▸ List.mem_map_of_mem (·.slug) hr)
    · exact raw_mem_buildMap M ps _ hnd.2 p hp'

/-- With unique slugs the built map is an element-level permutation of
the raw page nodes. -/
theorem buildMap_perm_raw (M : String) (ps : List PageDir)
    (hnd : (ps.map (·.slug)).Nodup) :
    (buildMap M ps).Perm (ps.map (rawPageNode M)) := by
  have hraw_slugs : (ps.map (rawPageNode M)).map (·.slug) = ps.map (·.slug) := by
    rw [List.map_map]
    rfl
  have hmap_slugs : ((buildMap M ps).map (·.slug)).Perm (ps.map (·.slug)) := by
    have h := foldl_btree_slugs M ps [] (by simpa using hnd)
    simpa using h
  have hnd₁ : (buildMap M ps).Nodup := (hmap_slugs.nodup_iff.mpr hnd).of_map (·.slug)
  have hnd₂ : (ps.map (rawPageNode M)).Nodup := by
    refine List.Nodup.of_map (·.slug) ?_
    rw [hraw_slugs]
    exact hnd
  rw [List.perm_ext_iff_of_nodup hnd₁ hnd₂]
  intro n
  constructor
  · intro hn
    rcases mem_foldl_btree M ps [] n hn with h | ⟨p, hp, rfl⟩
    · simp at h
    · exact List.mem_map_of_mem _ hp
  · intro hn
    obtain ⟨p, hp, rfl⟩ := List.mem_map.mp hn
    exact raw_mem_buildMap M ps [] hnd p hp

/-- `btreeInsert` preserves the strict byte-sorted invariant. -/
theorem pairwise_btreeInsert {l : List PageNode} {x : PageNode}
    (hl : l.Pairwise (fun a b => charListLt a.slug.data b.slug.data = true)) :
    (btreeInsert l x).Pairwise (fun a b => charListLt a.slug.data b.slug.data = true) := by
  induction l with
  | nil => simp [btreeInsert]
  | cons y ys ih =>
    rw [btreeInsert]
    obtain ⟨hy, hys⟩ := List.pairwise_cons.mp hl
    by_cases h1 : charListLt x.slug.data y.slug.data
    · rw [if_pos h1]
      refine List.pairwise_cons.mpr ⟨?_, hl⟩
      intro z hz
      rcases List.mem_cons.mp hz with rfl | hz'
      · exact h1
      · exact charListLt_trans h1 (hy z hz')
    · rw [if_neg h1]
      by_cases h2 : x.slug = y.slug
      · rw [if_pos h2]
        refine List.pairwise_cons.mpr ⟨?_, hys⟩
        intro z hz
        rw [show x.slug = y.slug from h2]
        exact hy z hz
      · rw [if_neg h2]
        refine List.pairwise_cons.mpr ⟨?_, ih hys⟩
        intro z hz
        rcases mem_btreeInsert hz with rfl | hz'
        · have hne : y.slug.data ≠ z.slug.data := fun hc =>
            h2 (string_eq_of_data hc).symm
          rcases charListLt_connex hne with h | h
          · exact h
          · exact absurd h h1
        · exact hy z hz'

/-- The built map is strictly byte-sorted. -/
theorem pairwise_buildMap (M : String) :
    ∀ (ps : List PageDir) (acc : List PageNode),
      acc.Pairwise (fun a b => charListLt a.slug.data b.slug.data = true) →
      (ps.foldl (fun a p => btreeInsert a (rawPageNode M p)) acc).Pairwise
        (fun a b => charListLt a.slug.data b.slug.data = true)
  | [], _, h => h
  | p :: ps, acc, h => by
    simp only [List.foldl_cons]
    exact pairwise_buildMap M ps _ (pairwise_btreeInsert h)

/-- A byte-sorted, slug-unique permutation of a list is its byte sort. -/
theorem byteSort_eq_of_perm {l₁ l₂ : List PageNode} (hp : l₁.Perm l₂)
    (hnd : (l₁.map (·.slug)).Nodup)
    (hs : l₁.Pairwise (fun a b => slugByteLE a b = true)) :
    l₁ = byteSortNodes l₂ := by
  refine sorted_perm_eq slugByteLE (hp.trans (stableSort_perm _ _).symm) hs ?_ ?_
  · exact pairwise_stableSort slugByteLE
      (fun a b => charListLe_total a.slug.data b.slug.data)
      (fun a b c h1 h2 => charListLe_trans h1 h2) _
  · intro a ha b hb h1 h2
    exact List.inj_on_of_nodup_map hnd ha hb
      (string_eq_of_data (charListLe_antisymm_data h1 h2))

/-- `find?` by slug is permutation-invariant under unique slugs. -/
theorem find?_slug_perm {l₁ l₂ : List PageNode} (hp : l₁.Perm l₂)
    (hnd : (l₁.map (·.slug)).Nodup) (s : String) :
    l₁.find? (fun n => n.slug = s) = l₂.find? (fun n => n.slug = s) := by
  cases hf : l₁.find? (fun n => n.slug = s) with
  | none =>
    have h := List.find?_eq_none.mp hf
    symm
    exact List.find?_eq_none.mpr (fun n hn => h n (hp.mem_iff.mpr hn))
  | some n =>
    have hmem : n ∈ l₂ := hp.mem_iff.mp (List.mem_of_find?_eq_some hf)
    have hnsl : n.slug = s := by simpa using List.find?_some hf
    have hnd₂ : (l₂.map (·.slug)).Nodup := ((hp.map (·.slug)).nodup_iff).mp hnd
    symm
    rw [← hnsl]
    exact find?_slug_of_mem_nodup hnd₂ hmem

/-! ## The order loop, exactly -/

/-- The order loop: the emitted prefix is the order list's hits (children
re-sorted) and the remaining map drops exactly the listed slugs — exact
lists, given duplicate-free order entries and map slugs. -/
theorem orderLoop_one (o : OrderFile) :
    ∀ (os : List String) (mp : List PageNode), os.Nodup → (mp.map (·.slug)).Nodup →
      (orderLoop o os mp).1 =
        os.filterMap (fun s => (mp.find? (fun n => n.slug = s)).map
          (fun n => { n with children := sortChildrenFor o s n.children })) ∧
      (orderLoop o os mp).2 = mp.filter (fun n => ! os.contains n.slug)
  | [], mp, _, _ => by
    constructor
    · rfl
    · show mp = mp.filter (fun n => ! ([] : List String).contains n.slug)
      simp
  | s :: rest, mp, hndos, hndmp => by
    simp only [List.nodup_cons] at hndos
    rw [orderLoop, btreeRemove_eq]
    cases hf : mp.find? (fun n => n.slug = s) with
    | none =>
      have hnos : ∀ n ∈ mp, ¬ (n.slug = s) := by
        intro n hn
        have := List.find?_eq_none.mp hf n hn
        simpa using this
      have he : mp.eraseP (fun n => n.slug = s) = mp :=
        List.eraseP_of_forall_not (by simpa using hnos)
      have ih := orderLoop_one o rest mp hndos.2 hndmp
      constructor
      · show (orderLoop o rest (mp.eraseP (fun n => n.slug = s))).1 = _
        have hfs : ((mp.find? (fun n => n.slug = s)).map
            (fun n => { n with children := sortChildrenFor o s n.children })) = none := by
          rw [hf]
          rfl
        have hhead : (s :: rest).filterMap
            (fun t => (mp.find? (fun n => n.slug = t)).map
              (fun n => { n with children := sortChildrenFor o t n.children })) =
            rest.filterMap
            (fun t => (mp.find? (fun n => n.slug = t)).map
              (fun n => { n with children := sortChildrenFor o t n.children })) :=
          List.filterMap_cons_none hfs
        rw [he, hhead]
        exact ih.1
      · show (orderLoop o rest (mp.eraseP (fun n => n.slug = s))).2 = _
        rw [he, ih.2]
        apply List.filter_congr
        intro n hn
        simp [hnos n hn]
    | some nf =>
      have hnfsl : nf.slug = s := by simpa using List.find?_some hf
      have hperm : mp.Perm (nf :: mp.eraseP (fun n => n.slug = s)) := perm_cons_eraseP hf
      have hndslugs : (nf.slug :: (mp.eraseP (fun n => n.slug = s)).map (·.slug)).Nodup := by
        have := (hperm.map (·.slug)).nodup_iff.mp hndmp
        simpa using this
      have hnd' : ((mp.eraseP (fun n => n.slug = s)).map (·.slug)).Nodup :=
        (List.nodup_cons.mp hndslugs).2
      have hsne : ∀ n ∈ mp.eraseP (fun n => n.slug = s), ¬ (n.slug = s) := by
        intro n hn hc
        have e : n.slug = nf.slug := hc.trans hnfsl.symm
        exact (List.nodup_cons.mp hndslugs).1 (e ▸ List.mem_map_of_mem (·.slug) hn)
      have ih := orderLoop_one o rest (mp.eraseP (fun n => n.slug = s)) hndos.2 hnd'
      constructor
      · show ({ nf with children := sortChildrenFor o s nf.children } ::
            (orderLoop o rest (mp.eraseP (fun q => q.slug = s))).1) = _
        have hfs : ((mp.find? (fun n => n.slug = s)).map
            (fun n => { n with children := sortChildrenFor o s n.children })) =
            some { nf with children := sortChildrenFor o s nf.children } := by
          rw [hf]
          rfl
        have hhead : (s :: rest).filterMap
            (fun t => (mp.find? (fun n => n.slug = t)).map
              (fun n => { n with children := sortChildrenFor o t n.children })) =
            { nf with children := sortChildrenFor o s nf.children } ::
            rest.filterMap
            (fun t => (mp.find? (fun n => n.slug = t)).map
              (fun n => { n with children := sortChildrenFor o t n.children })) :=
          List.filterMap_cons_some hfs
        rw [hhead]
        congr 1
        rw [ih.1]
        apply List.filterMap_congr
        intro s' hs'
        have hne : ¬ (s = s') := fun hc => hndos.1 (hc ▸ hs')
        have hq : (mp.eraseP (fun q => q.slug = s)).find? (fun n => n.slug = s') =
            mp.find? (fun n => n.slug = s') := by
          apply find?_eraseP_disjoint
          intro n _
          simp only [decide_eq_true_eq, not_and]
          intro h1 h2
          exact hne (h1 ▸ h2)
        rw [hq]
      · show (orderLoop o rest (mp.eraseP (fun q => q.slug = s))).2 = _
        rw [ih.2]
        have hstep : (mp.eraseP (fun q => q.slug = s)).filter
              (fun n => ! rest.contains n.slug) =
            (mp.eraseP (fun q => q.slug = s)).filter
              (fun n => ! (s :: rest).contains n.slug) := by
          apply List.filter_congr
          intro n hn
          simp [hsne n hn]
        rw [hstep]
        apply filter_eraseP_of_imp
        intro n _ hq
        simp only [decide_eq_true_eq] at hq
        simp [hq]

/-- C4 counterexample: module `m` has page `p` (subpages enumerating as
`B`, `a`, `x`; per-parent order `[x]`) and page `q` (subpages `a`, `b`;
per-parent order `[b]`), with only `p` in the order list.  The code
leaves `p`'s unlisted subpages in enumeration order (`x, B, a`), not
case-insensitively sorted (`x, a, B`), and ignores `q`'s per-parent list
entirely (`a, b`), while the claim predicts `b, a` — so the claimed
arrangement differs from the built tree. -/
theorem C4_counterexample :
    okShape (build_module_tree_uncached wC4 "m") =
      some [("p", ["x", "B", "a"]), ("q", ["a", "b"])] ∧
    (c4ClaimTree wC4 "m").map (fun t => t.map (fun n => (n.slug, slugsOf n.children))) =
      some [("p", ["x", "a", "B"]), ("q", ["b", "a"])] ∧
    (["x", "B", "a"] : List String) ≠ ["x", "a", "B"] ∧
    (["a", "b"] : List String) ≠ ["b", "a"] :=
  ⟨rfl, rfl, by decide, by decide⟩

/-- C4 (amended): for a module whose page slugs, order-file entries and
per-page subpage slugs are duplicate-free (with order lists no longer
than `usize::MAX`), the built tree is exactly: the order-listed pages
first, in list order — each such page's children arranged with its
per-parent-listed subpages first in listed order and the *remaining
subpages in filesystem enumeration order* (not case-insensitively
sorted) — followed by the remaining pages sorted case-insensitively with
byte-order ties, their children sorted case-insensitively with their
per-parent order lists ignored entirely. -/
theorem C4_amended (w : World) (M : String) (m : ModuleDir)
    (hm : findModule w M = some m)
    (hndp : ((getPages m).map (·.slug)).Nodup)
    (hndo : (load_order m).pages.Nodup)
    (hnds : ∀ kv ∈ (load_order m).subpages, kv.2.Nodup ∧ kv.2.length ≤ USIZE_MAX)
    (hndc : ∀ p ∈ getPages m, ((p.subpages.getD []).map (·.slug)).Nodup) :
    build_module_tree_uncached w M = .ok (c4AmendedTree m M) := by
  have hraw_slugs : ((getPages m).map (rawPageNode M)).map (·.slug) =
      (getPages m).map (·.slug) := by
    rw [List.map_map]
    rfl
  have hperm := buildMap_perm_raw M (getPages m) hndp
  have hmpnd : ((buildMap M (getPages m)).map (·.slug)).Nodup := by
    refine ((hperm.map (·.slug)).nodup_iff).mpr ?_
    rw [hraw_slugs]
    exact hndp
  have hstart : buildStart (load_order m) (buildMap M (getPages m)) =
      orderLoop (load_order m) (load_order m).pages (buildMap M (getPages m)) := by
    unfold buildStart
    by_cases h : (load_order m).pages.isEmpty
    · rw [if_pos h, List.isEmpty_iff.mp h]
      rfl
    · rw [if_neg h]
  have hloop := orderLoop_one (load_order m) (load_order m).pages
    (buildMap M (getPages m)) hndo hmpnd
  have hlisted : (orderLoop (load_order m) (load_order m).pages
      (buildMap M (getPages m))).1 =
      (load_order m).pages.filterMap (fun s =>
        (((getPages m).map (rawPageNode M)).find? (fun n => n.slug = s)).map
          (fun n => { n with children := c4AmendedChildren (load_order m) s n.children })) := by
    rw [hloop.1]
    apply List.filterMap_congr
    intro s _
    rw [find?_slug_perm hperm hmpnd s]
    apply Option.map_congr
    intro n hn
    have hmem : n ∈ (getPages m).map (rawPageNode M) :=
      List.mem_of_find?_eq_some (Option.mem_def.mp hn)
    obtain ⟨p, hp, rfl⟩ := List.mem_map.mp hmem
    have hch : (((rawPageNode M p).children).map (·.slug)).Nodup := by
      show (((p.subpages.getD []).map (subpageNode M p.slug)).map (·.slug)).Nodup
      rw [List.map_map]
      exact hndc p hp
    rw [sortChildrenFor_eq (load_order m) s (rawPageNode M p).children hch hnds]
  have hrest : (orderLoop (load_order m) (load_order m).pages
      (buildMap M (getPages m))).2 =
      byteSortNodes (((getPages m).map (rawPageNode M)).filter
        (fun n => ! (load_order m).pages.contains n.slug)) := by
    rw [hloop.2]
    refine byteSort_eq_of_perm (hperm.filter _) ?_ ?_
    · exact List.Nodup.sublist (List.Sublist.map _ (List.filter_sublist _)) hmpnd
    · have hpw := pairwise_buildMap M (getPages m) [] List.Pairwise.nil
      have hsub : ((buildMap M (getPages m)).filter
          (fun n => ! (load_order m).pages.contains n.slug)).Sublist
          (buildMap M (getPages m)) := List.filter_sublist _
      have hpw2 := List.Pairwise.sublist hsub hpw
      exact hpw2.imp (fun {a b} hab => by
        show (!(charListLt b.slug.data a.slug.data)) = true
        rw [charListLt_asymm hab]
        rfl)
  have hfin : buildFinish (buildStart (load_order m) (buildMap M (getPages m))) =
      c4AmendedTree m M := by
    unfold buildFinish
    rw [hstart, hlisted, hrest]
    rfl
  rw [build_ok w M m hm, hfin]

/-- Witness for C4 (amended): the claim's own `list`/`create` scenario
with order file `{pages: ["create"]}` yields `create` first, then
`list`. -/
theorem C4_amended_witness :
    okShape (build_module_tree_uncached wC4w "shop") =
      some [("create", []), ("list", [])] := by
  have h := C4_amended wC4w "shop" _ rfl (by decide) (by decide) (by decide) (by decide)
  rw [h]
  rfl

end ErSlice
